import Mathlib

/-!
# errorSync: a wait group with error escalation and interrupts

A shallow embedding of `errorWaitGroup.go`.

The program is concurrent, so it is embedded as a transition system.  A state
holds the fields of the `ErrorWaitGroup` (id generator, mutex, registry,
auto-interrupt table) and one program counter per goroutine that is inside a
call of the public API.  A program counter names the *blocking point* at which
the goroutine stands: a `Lock()`, a send on, or a receive from, an unbuffered
channel.  One transition runs a goroutine from one blocking point to the next
(or to its `return`); the statements in between never block.  The order in
which `InterruptAll` ranges over the registry map is not fixed by Go; every
order is a possible transition.

Unbuffered channels carry no state of their own: a value is "in" a channel
exactly while some goroutine is blocked sending it, and a receive is a
rendezvous with one such goroutine.

Machine integers: `AdminId.id` is a Go `int`; it is modelled as an `Int` with
explicit two's-complement wraparound at 64 bits (`wrapInt`).  `NotifCode` and
`InterruptCode` are only compared, never computed with.  Values of type
`interface{}` and `error` are opaque tokens (`Option Nat`, `none` for `nil`).
-/

namespace ErrorSync

/-! ## Data model (lines 7-61, 92-112) -/

/-- Go `int` on a 64-bit target: wrap an integer into `[-2^63, 2^63)`. -/
def wrapInt (x : Int) : Int := (x + 2 ^ 63) % 2 ^ 64 - 2 ^ 63

/-- `type NotifCode int`. -/
abbrev NotifCode := Int

/-- `NotifCode_Done NotifCode = iota`. -/
def NotifCode_Done : NotifCode := 0

/-- `NotifCode_Error`. -/
def NotifCode_Error : NotifCode := 1

/-- `type InterruptCode int`. -/
abbrev InterruptCode := Int

/-- `InterruptCode_Stop InterruptCode = iota`. -/
def InterruptCode_Stop : InterruptCode := 0

/-- `InterruptCode_Kill`. -/
def InterruptCode_Kill : InterruptCode := 1

/-- `type AdminId struct { id int }`. -/
structure AdminId where
  id : Int
  deriving DecidableEq, Repr

/-- `type Notif struct { adminId; code; info; err }`. -/
structure Notif where
  adminId : AdminId
  code : NotifCode
  info : Option Nat
  err : Option Nat
  deriving DecidableEq, Repr

/-- The zero value `Notif{}`. -/
def Notif.zero : Notif := ⟨⟨0⟩, 0, none, none⟩

/-- `type Interrupt struct { code; info }`. -/
structure Interrupt where
  code : InterruptCode
  info : Option Nat
  deriving DecidableEq, Repr

/-- The zero value `Interrupt{}`. -/
def Interrupt.zero : Interrupt := ⟨0, none⟩

/-- `type Admin struct { id; interruptCh; ewg }`.  A channel is identified by
the number of the `make(chan Interrupt)` that created it.  There is one group,
so the back pointer `ewg` is left out. -/
structure Admin where
  id : AdminId
  interruptCh : Nat
  deriving DecidableEq, Repr

/-- `type adminIdGen struct { top AdminId }`. -/
structure adminIdGen where
  top : AdminId
  deriving DecidableEq, Repr

/-- `func (aig *adminIdGen) next() AdminId`: `aig.top.id++; return aig.top`.
Returns the id together with the updated generator. -/
def adminIdGen.next (aig : adminIdGen) : AdminId × adminIdGen :=
  (⟨wrapInt (aig.top.id + 1)⟩, ⟨⟨wrapInt (aig.top.id + 1)⟩⟩)

/-! ### Go maps as association lists -/

/-- Lookup `m[k]` (with the comma-ok form: `none` when the key is absent). -/
def mapGet {κ ν : Type} [DecidableEq κ] (m : List (κ × ν)) (k : κ) : Option ν :=
  (m.find? (fun e => decide (e.1 = k))).map (fun e => e.2)

/-- Builtin `delete(m, k)`. -/
def mapDelete {κ ν : Type} [DecidableEq κ] (m : List (κ × ν)) (k : κ) : List (κ × ν) :=
  m.filter (fun e => decide (e.1 ≠ k))

/-- Assignment `m[k] = v`. -/
def mapSet {κ ν : Type} [DecidableEq κ] (m : List (κ × ν)) (k : κ) (v : ν) : List (κ × ν) :=
  mapDelete m k ++ [(k, v)]

/-- The key set of a map. -/
def mapKeys {κ ν : Type} (m : List (κ × ν)) : List κ := m.map (fun e => e.1)

/-- `type ErrorWaitGroup struct`.  `safe` is the mutex (`true` when locked).
`notifCh` is unbuffered and has no state of its own; the field `info` is never
read or written and is left out. -/
structure ErrorWaitGroup where
  idGen : adminIdGen
  safe : Bool
  admins : List (AdminId × Admin)
  autoInterrupts : List (NotifCode × InterruptCode)
  deriving DecidableEq, Repr

/-- `func New() ErrorWaitGroup`. -/
def New : ErrorWaitGroup := ⟨⟨⟨-1⟩⟩, false, [], []⟩

/-! ## Goroutines -/

/-- What a finished call returned. -/
inductive Ret where
  | unit
  | handle (a : Admin)
  | wait (n : Notif) (isDone : Bool)
  | poll (i : Interrupt) (ok : Bool)
  deriving DecidableEq, Repr

/-- The blocking points of the API.
* `addLock`: `Add`, line 119.
* `setLock n i`: `SetAutoInterrupt`, line 128.
* `rmLock n`: `RemoveAutoInterrupt`, line 134.
* `ndLock a`: `NotifyDone`, line 82.
* `send n`: `Notify`, line 78, blocked in `a.ewg.notifCh <- n`.
* `poll a`: `PollInterrupt`, line 64, at the `select`.
* `intLock id inter`: `Interrupt`, line 189.
* `intSend a inter`: `Interrupt`, line 192 (line 74), blocked in
  `a.interruptCh <- inter`, mutex held.
* `iaLock inter k`: `InterruptAll`, line 180; `k` is what the caller returns
  afterwards when the caller is `Wait` (line 175), `none` for a direct call.
* `iaSend a rest inter k`: `InterruptAll`, line 182 (line 74), blocked sending
  to `a`, with `rest` still to be visited by the `range` in that order, mutex
  held.
* `waitStart`: `Wait`, line 139.
* `waitRecv`: `Wait`, line 153, blocked in `<-ewg.notifCh`.
* `waitLock n`: `Wait`, line 159, having received `n`.
* `done r`: the call has returned `r`. -/
inductive Pc where
  | addLock
  | setLock (n : NotifCode) (i : InterruptCode)
  | rmLock (n : NotifCode)
  | ndLock (a : Admin)
  | send (n : Notif)
  | poll (a : Admin)
  | intLock (id : AdminId) (inter : Interrupt)
  | intSend (a : Admin) (inter : Interrupt)
  | iaLock (inter : Interrupt) (k : Option (Notif × Bool))
  | iaSend (a : Admin) (rest : List Admin) (inter : Interrupt) (k : Option (Notif × Bool))
  | waitStart
  | waitRecv
  | waitLock (n : Notif)
  | done (r : Ret)
  deriving DecidableEq, Repr

/-- The calls of the public API. -/
inductive Call where
  | Add
  | SetAutoInterrupt (n : NotifCode) (i : InterruptCode)
  | RemoveAutoInterrupt (n : NotifCode)
  | Wait
  | InterruptAll (inter : Interrupt)
  | Interrupt (id : AdminId) (inter : Interrupt)
  | PollInterrupt (a : Admin)
  | Notify (a : Admin) (code : NotifCode) (info : Option Nat) (err : Option Nat)
  | NotifyDone (a : Admin)
  | NotifyError (a : Admin) (err : Option Nat)
  deriving DecidableEq, Repr

/-- The whole system: the group, the goroutines inside API calls, and three
history variables that the program does not store: the number of interrupt
channels made so far, the handles returned by `Add` (in order), and the ids
deleted from the registry by `NotifyDone` (line 83). -/
structure State where
  ewg : ErrorWaitGroup
  threads : List Pc
  nextCh : Nat
  issued : List Admin
  removed : List AdminId
  deriving DecidableEq, Repr

/-- The system right after `New()`. -/
def State.init : State := ⟨New, [], 0, [], []⟩

/-- The handle a call uses, if any: handles come only from `Add`. -/
def Call.handle : Call → Option Admin
  | .PollInterrupt a => some a
  | .Notify a _ _ _ => some a
  | .NotifyDone a => some a
  | .NotifyError a _ => some a
  | _ => none

/-- The first blocking point of a call.  `Notify` builds
`Notif{a.id, code, info, err}` (line 78); `NotifyError(err)` is
`Notify(NotifCode_Error, nil, err)` (line 89). -/
def Call.entry : Call → Pc
  | .Add => .addLock
  | .SetAutoInterrupt n i => .setLock n i
  | .RemoveAutoInterrupt n => .rmLock n
  | .Wait => .waitStart
  | .InterruptAll inter => .iaLock inter none
  | .Interrupt id inter => .intLock id inter
  | .PollInterrupt a => .poll a
  | .Notify a code info err => .send ⟨a.id, code, info, err⟩
  | .NotifyDone a => .ndLock a
  | .NotifyError a err => .send ⟨a.id, NotifCode_Error, none, err⟩

/-- The interrupt channel and the value a goroutine is blocked sending. -/
def Pc.offer : Pc → Option (Nat × Interrupt)
  | .intSend a inter => some (a.interruptCh, inter)
  | .iaSend a _ inter _ => some (a.interruptCh, inter)
  | _ => none

/-- Whether some goroutine is blocked sending on interrupt channel `ch`. -/
def hasSender (ts : List Pc) (ch : Nat) : Bool :=
  ts.any (fun p => match p.offer with
    | some (c, _) => decide (c = ch)
    | none => false)

/-- What `InterruptAll` hands back at its end: nothing for a direct call, the
pair `_n, isDone` of line 175 when `Wait` called it. -/
def iaRet : Option (Notif × Bool) → Ret
  | none => .unit
  | some (n, b) => .wait n b

/-! ## Critical sections (the code between `Lock` and the next blocking point) -/

/-- `Add`, lines 120-122, with `ch` the fresh channel. -/
def ErrorWaitGroup.Add (g : ErrorWaitGroup) (ch : Nat) : Admin × ErrorWaitGroup :=
  let r := g.idGen.next
  let admin : Admin := ⟨r.1, ch⟩
  (admin, { g with idGen := r.2, admins := mapSet g.admins r.1 admin })

/-- `SetAutoInterrupt`, line 129. -/
def ErrorWaitGroup.SetAutoInterrupt (g : ErrorWaitGroup) (n : NotifCode) (i : InterruptCode) :
    ErrorWaitGroup :=
  { g with autoInterrupts := mapSet g.autoInterrupts n i }

/-- `RemoveAutoInterrupt`, line 135. -/
def ErrorWaitGroup.RemoveAutoInterrupt (g : ErrorWaitGroup) (n : NotifCode) : ErrorWaitGroup :=
  { g with autoInterrupts := mapDelete g.autoInterrupts n }

/-- `NotifyDone`, line 83: `delete(a.ewg.admins, a.id)`. -/
def ErrorWaitGroup.deleteAdmin (g : ErrorWaitGroup) (a : Admin) : ErrorWaitGroup :=
  { g with admins := mapDelete g.admins a.id }

/-! ## Transitions -/

/-- What the scheduler may do next: a goroutine enters a call; a goroutine
moves on by itself; a receiver takes the value a sender is blocked on; or an
`InterruptAll` standing at its `Lock()` starts its `range` over the registry,
in the order `order`. -/
inductive Action where
  | call (c : Call)
  | step (t : Nat)
  | recv (t : Nat) (sender : Nat)
  | range (t : Nat) (order : List Admin)
  deriving DecidableEq, Repr

/-- A goroutine enters a call: a new thread at the call's first blocking point. -/
def doCall (s : State) (c : Call) : Option State :=
  match c.handle with
  | some a => if a ∈ s.issued then some { s with threads := s.threads ++ [c.entry] } else none
  | none => some { s with threads := s.threads ++ [c.entry] }

/-- Thread `t` moves on its own from its blocking point to the next one.
A `Lock()` needs the mutex free; the `select` of `PollInterrupt` takes
`default` only when no sender is ready on the channel.  An `InterruptAll` at
its `Lock()` does not move here but by `doRange`, which also fixes the order of
its `range`. -/
def doStep (s : State) (t : Nat) : Option State :=
  match s.threads[t]? with
  | none => none
  | some .addLock =>
    -- lines 119-124
    if s.ewg.safe then none else
      let r := s.ewg.Add s.nextCh
      some { s with ewg := r.2, nextCh := s.nextCh + 1, issued := s.issued ++ [r.1],
                    threads := s.threads.set t (.done (.handle r.1)) }
  | some (.setLock n i) =>
    -- lines 128-130
    if s.ewg.safe then none else
      some { s with ewg := s.ewg.SetAutoInterrupt n i, threads := s.threads.set t (.done .unit) }
  | some (.rmLock n) =>
    -- lines 134-136
    if s.ewg.safe then none else
      some { s with ewg := s.ewg.RemoveAutoInterrupt n, threads := s.threads.set t (.done .unit) }
  | some (.ndLock a) =>
    -- lines 82-85: lock, delete, unlock, then Notify(NotifCode_Done, nil, nil)
    if s.ewg.safe then none else
      some { s with ewg := s.ewg.deleteAdmin a, removed := s.removed ++ [a.id],
                    threads := s.threads.set t (.send ⟨a.id, NotifCode_Done, none, none⟩) }
  | some (.send _) => none
  | some (.poll a) =>
    -- lines 67-68
    if hasSender s.threads a.interruptCh then none else
      some { s with threads := s.threads.set t (.done (.poll Interrupt.zero false)) }
  | some (.intLock id inter) =>
    -- lines 189-194
    if s.ewg.safe then none else
      match mapGet s.ewg.admins id with
      | none => some { s with threads := s.threads.set t (.done .unit) }
      | some admin =>
        some { s with ewg := { s.ewg with safe := true },
                      threads := s.threads.set t (.intSend admin inter) }
  | some (.intSend _ _) => none
  | some (.iaLock _ _) => none
  | some (.iaSend _ _ _ _) => none
  | some .waitStart =>
    -- lines 141-149
    if s.ewg.admins.length = 0 then
      some { s with threads := s.threads.set t (.done (.wait Notif.zero true)) }
    else
      some { s with threads := s.threads.set t .waitRecv }
  | some .waitRecv => none
  | some (.waitLock n) =>
    -- lines 159-175
    if s.ewg.safe then none else
      if n.code ≠ NotifCode_Done then
        match mapGet s.ewg.autoInterrupts n.code with
        | some iCode =>
          some { s with ewg := { s.ewg with safe := true },
                        threads := s.threads.set t (.iaLock ⟨iCode, none⟩ (some (n, false))) }
        | none =>
          some { s with ewg := { s.ewg with safe := true },
                        threads := s.threads.set t (.done (.wait n false)) }
      else if s.ewg.admins.length = 0 then
        some { s with ewg := { s.ewg with safe := true },
                      threads := s.threads.set t (.done (.wait Notif.zero true)) }
      else
        some { s with threads := s.threads.set t .waitRecv }
  | some (.done _) => none

/-- Receiver `t` takes the value that thread `sender` is blocked sending.
`Wait` (line 153) receives a `Notif` from a thread in `Notify`;
`PollInterrupt` (lines 65-66) receives an `Interrupt` from a thread in
`Interrupt` or `InterruptAll`, which then goes on: `Interrupt` unlocks and
returns (line 194), `InterruptAll` sends to the next admin or, after the last
one, unlocks and returns (line 184). -/
def doRecv (s : State) (t : Nat) (sender : Nat) : Option State :=
  match s.threads[t]?, s.threads[sender]? with
  | some .waitRecv, some (.send n) =>
    some { s with threads := (s.threads.set t (.waitLock n)).set sender (.done .unit) }
  | some (.poll a), some (.intSend b inter) =>
    if a.interruptCh = b.interruptCh then
      some { s with ewg := { s.ewg with safe := false },
                    threads := (s.threads.set t (.done (.poll inter true))).set sender (.done .unit) }
    else none
  | some (.poll a), some (.iaSend b rest inter k) =>
    if a.interruptCh = b.interruptCh then
      match rest with
      | [] =>
        some { s with ewg := { s.ewg with safe := false },
                      threads := (s.threads.set t (.done (.poll inter true))).set sender
                        (.done (iaRet k)) }
      | c :: rest' =>
        some { s with threads := (s.threads.set t (.done (.poll inter true))).set sender
                        (.iaSend c rest' inter k) }
    else none
  | _, _ => none

/-- `InterruptAll`, lines 180-184: thread `t` locks the mutex and ranges over
the registry, sending to each admin in turn.  Go leaves the order in which a
`range` visits a map unspecified and it differs from run to run, so the order
is the scheduler's choice: `order` may be any arrangement of the admins in the
registry.  On an empty registry the loop body never runs and the call unlocks
and returns; otherwise the thread blocks sending to the first admin of
`order`, with the mutex locked. -/
def doRange (s : State) (t : Nat) (order : List Admin) : Option State :=
  match s.threads[t]? with
  | some (.iaLock inter k) =>
    if s.ewg.safe then none else
      if order.Perm (s.ewg.admins.map (fun e => e.2)) then
        match order with
        | [] => some { s with threads := s.threads.set t (.done (iaRet k)) }
        | a :: rest =>
          some { s with ewg := { s.ewg with safe := true },
                        threads := s.threads.set t (.iaSend a rest inter k) }
      else none
  | _ => none

/-- One transition. -/
def step (s : State) : Action → Option State
  | .call c => doCall s c
  | .step t => doStep s t
  | .recv t sender => doRecv s t sender
  | .range t order => doRange s t order

/-- Run a schedule; `none` when some action of it is not enabled. -/
def run (s : State) : List Action → Option State
  | [] => some s
  | a :: as => (step s a).bind (fun s' => run s' as)

/-- States the program can be in after `New()`. -/
def Reachable (s : State) : Prop := ∃ acts, run State.init acts = some s

/-! ## Auxiliary predicates -/

/-- A pc that stands at a `Lock()`. -/
def Pc.atLock : Pc → Bool
  | .addLock => true
  | .setLock _ _ => true
  | .rmLock _ => true
  | .ndLock _ => true
  | .intLock _ _ => true
  | .iaLock _ _ => true
  | .waitLock _ => true
  | _ => false

/-- The mutex is locked and no goroutine stands where it could unlock it. -/
def Stuck (s : State) : Prop :=
  s.ewg.safe = true ∧ ∀ p ∈ s.threads, p.offer = none

/-- The program counters that can newly appear while the mutex is stuck: the
entry of a call, a `PollInterrupt` that took `default`, a `Wait` that found the
registry empty at line 144 or went to its receive, a `Wait` that received a
report, and a `Notify` whose report was received. -/
def Pc.StuckNew (p : Pc) : Prop :=
  (∃ c : Call, p = c.entry) ∨ p = .done (.poll Interrupt.zero false) ∨
    p = .done (.wait Notif.zero true) ∨ p = .waitRecv ∨ (∃ n, p = .waitLock n) ∨
    p = .done .unit

/-! ### Handles and schedules used as concrete inputs -/

/-- The handle returned by the first `Add`. -/
def h0 : Admin := ⟨⟨0⟩, 0⟩

/-- The handle returned by the second `Add`. -/
def h1 : Admin := ⟨⟨1⟩, 1⟩

/-- The handle returned by the third `Add`. -/
def h2 : Admin := ⟨⟨2⟩, 2⟩

/-- `InterruptCode_Stop` with no payload. -/
def stop : Interrupt := ⟨InterruptCode_Stop, none⟩

/-- One worker; `Wait` is called; the worker calls `NotifyDone`; `Wait` receives
the Done report and finds the registry empty. -/
def drainSchedule : List Action :=
  [.call .Add, .step 0, .call .Wait, .step 1, .call (.NotifyDone h0), .step 2, .recv 1 2,
   .step 1]

/-- The state at the end of `drainSchedule`. -/
def drainEnd : State :=
  { ewg := ⟨⟨⟨0⟩⟩, true, [], []⟩
    threads := [.done (.handle h0), .done (.wait Notif.zero true), .done .unit]
    nextCh := 1
    issued := [h0]
    removed := [⟨0⟩] }

/-- One worker; `Wait` is called; the worker calls `NotifyError(err)` with
`err` the token `7`; no auto-interrupt is configured. -/
def escalateSchedule : List Action :=
  [.call .Add, .step 0, .call .Wait, .step 1, .call (.NotifyError h0 (some 7)), .recv 1 2,
   .step 1]

/-- The state at the end of `escalateSchedule`. -/
def escalateEnd : State :=
  { ewg := ⟨⟨⟨0⟩⟩, true, [(⟨0⟩, h0)], []⟩
    threads := [.done (.handle h0), .done (.wait ⟨⟨0⟩, NotifCode_Error, none, some 7⟩ false),
                .done .unit]
    nextCh := 1
    issued := [h0]
    removed := [] }

/-- One worker and `SetAutoInterrupt(NotifCode_Error, InterruptCode_Stop)`;
`Wait` is called; the worker calls `NotifyError(err)`. -/
def autoSchedule : List Action :=
  [.call .Add, .step 0, .call (.SetAutoInterrupt NotifCode_Error InterruptCode_Stop), .step 1,
   .call .Wait, .step 2, .call (.NotifyError h0 (some 7)), .recv 2 3, .step 2]

/-- The state at the end of `autoSchedule`: `Wait` stands at the `Lock()` of
`InterruptAll` with the mutex still locked by itself. -/
def autoEnd : State :=
  { ewg := ⟨⟨⟨0⟩⟩, true, [(⟨0⟩, h0)], [(NotifCode_Error, InterruptCode_Stop)]⟩
    threads := [.done (.handle h0), .done .unit,
                .iaLock stop (some (⟨⟨0⟩, NotifCode_Error, none, some 7⟩, false)),
                .done .unit]
    nextCh := 1
    issued := [h0]
    removed := [] }

/-- A result of `Wait` is well formed: the flag is `true` with `Notif{}`, or
`false` with a report whose code is not `NotifCode_Done`. -/
def Ret.waitOk : Ret → Prop
  | .wait n b => (b = true ∧ n = Notif.zero) ∨ (b = false ∧ n.code ≠ NotifCode_Done)
  | _ => True

/-- The same for a goroutine: its result, or the result `InterruptAll` will
hand back to `Wait`, is well formed. -/
def Pc.waitOk : Pc → Prop
  | .done r => r.waitOk
  | .iaLock _ k => (iaRet k).waitOk
  | .iaSend _ _ _ k => (iaRet k).waitOk
  | _ => True

/-- Two workers and `SetAutoInterrupt(NotifCode_Done, InterruptCode_Stop)`;
`Wait` is called; the first worker calls `NotifyDone` and `Wait` receives its
report; then the second worker polls. -/
def doneCodeSchedule : List Action :=
  [.call .Add, .step 0, .call .Add, .step 1,
   .call (.SetAutoInterrupt NotifCode_Done InterruptCode_Stop), .step 2,
   .call .Wait, .step 3, .call (.NotifyDone h0), .step 4, .recv 3 4, .step 3,
   .call (.PollInterrupt h1), .step 5]

/-- The state at the end of `doneCodeSchedule`. -/
def doneCodeEnd : State :=
  { ewg := ⟨⟨⟨1⟩⟩, false, [(⟨1⟩, h1)], [(NotifCode_Done, InterruptCode_Stop)]⟩
    threads := [.done (.handle h0), .done (.handle h1), .done .unit, .waitRecv, .done .unit,
                .done (.poll Interrupt.zero false)]
    nextCh := 2
    issued := [h0, h1]
    removed := [⟨0⟩] }

/-- Three workers and `SetAutoInterrupt(7, InterruptCode_Stop)` for the custom
code `7`; `Wait` is called; the first worker calls `Notify(7, payload, nil)`. -/
def customCodeSchedule : List Action :=
  [.call .Add, .step 0, .call .Add, .step 1, .call .Add, .step 2,
   .call (.SetAutoInterrupt 7 InterruptCode_Stop), .step 3,
   .call .Wait, .step 4, .call (.Notify h0 7 (some 5) none), .recv 4 5, .step 4]

/-- The state at the end of `customCodeSchedule`. -/
def customCodeEnd : State :=
  { ewg := ⟨⟨⟨2⟩⟩, true, [(⟨0⟩, h0), (⟨1⟩, h1), (⟨2⟩, h2)], [(7, InterruptCode_Stop)]⟩
    threads := [.done (.handle h0), .done (.handle h1), .done (.handle h2), .done .unit,
                .iaLock stop (some (⟨⟨0⟩, 7, some 5, none⟩, false)), .done .unit]
    nextCh := 3
    issued := [h0, h1, h2]
    removed := [] }

/-- At most one goroutine is blocked sending an interrupt. -/
def AtMostOne (l : List Pc) : Prop :=
  ∀ (t1 t2 : Nat) (p1 p2 : Pc), l[t1]? = some p1 → l[t2]? = some p2 →
    p1.offer ≠ none → p2.offer ≠ none → t1 = t2

/-- The senders on interrupt channels hold the mutex: with the mutex free
there is none, and there is never more than one. -/
def SendersOk (s : State) : Prop :=
  (s.ewg.safe = false → ∀ p ∈ s.threads, p.offer = none) ∧ AtMostOne s.threads

/-- Interrupt `i` is available on channel `ch`: some goroutine is blocked
sending it there, so that a `PollInterrupt` on `ch` receives it. -/
def State.pending (s : State) (ch : Nat) (i : Interrupt) : Prop :=
  ∃ (t : Nat) (p : Pc), s.threads[t]? = some p ∧ p.offer = some (ch, i)

/-- A registered worker `h0` and a pending `Interrupt(h0.id, stop)`. -/
def interruptBefore : State :=
  { ewg := ⟨⟨⟨0⟩⟩, false, [(⟨0⟩, h0)], []⟩
    threads := [.done (.handle h0), .intLock ⟨0⟩ stop]
    nextCh := 1
    issued := [h0]
    removed := [] }

/-- `InterruptCode_Kill` with no payload. -/
def kill : Interrupt := ⟨InterruptCode_Kill, none⟩

/-- One worker, never polling, and `Interrupt(h0.id, stop)`. -/
def blockedSchedule : List Action :=
  [.call .Add, .step 0, .call (.Interrupt ⟨0⟩ stop), .step 1]

/-- The state at the end of `blockedSchedule`: `Interrupt` is blocked in its
send with the mutex locked. -/
def blockedEnd : State :=
  { ewg := ⟨⟨⟨0⟩⟩, true, [(⟨0⟩, h0)], []⟩
    threads := [.done (.handle h0), .intSend h0 stop]
    nextCh := 1
    issued := [h0]
    removed := [] }

/-- `n` calls of `Add` made one after the other on a fresh group; the `k`-th
call is goroutine `k`. -/
def addSchedule : Nat → List Action
  | 0 => []
  | n + 1 => addSchedule n ++ [.call .Add, .step n]

/-- The id generator and the handles issued so far agree: the `k`-th `Add`
(counting from 0) returned the id `wrapInt k`. -/
def IdInv (s : State) : Prop :=
  s.ewg.idGen.top.id = wrapInt ((s.issued.length : Int) - 1) ∧
    ∀ (k : Nat) (a : Admin), s.issued[k]? = some a → a.id.id = wrapInt (k : Int)

/-- Whether a goroutine stands at the `Lock()` of `NotifyDone`. -/
def Pc.isNdLock : Pc → Bool
  | .ndLock _ => true
  | _ => false

/-- The registry and the history variables agree. -/
def RegInv (s : State) : Prop :=
  (∀ (a : Admin), Pc.ndLock a ∈ s.threads → a ∈ s.issued) ∧
  (∀ id ∈ s.removed, id ∈ s.issued.map Admin.id) ∧
  (∀ e ∈ s.ewg.admins, e.2 ∈ s.issued ∧ e.2.id = e.1) ∧
  (s.removed = [] → ∀ a ∈ s.issued, a.id ∈ mapKeys s.ewg.admins) ∧
  ((s.issued.map Admin.id).Nodup →
    ∀ id, id ∈ mapKeys s.ewg.admins ↔ (id ∈ s.issued.map Admin.id ∧ id ∉ s.removed))

/-- Two workers; `Interrupt(h0.id, stop)` is blocked on the first worker, who
is not polling; then the second worker calls `NotifyDone`. -/
def calledSchedule : List Action :=
  [.call .Add, .step 0, .call .Add, .step 1, .call (.Interrupt ⟨0⟩ stop), .step 2,
   .call (.NotifyDone h1)]

/-- The state at the end of `calledSchedule`. -/
def calledEnd : State :=
  { ewg := ⟨⟨⟨1⟩⟩, true, [(⟨0⟩, h0), (⟨1⟩, h1)], []⟩
    threads := [.done (.handle h0), .done (.handle h1), .intSend h0 stop, .ndLock h1]
    nextCh := 2
    issued := [h0, h1]
    removed := [] }

/-- A call that sends no Error or custom report: any call but `NotifyError`
and `Notify` with a code other than `NotifCode_Done`. -/
def Call.doneOnly : Call → Prop
  | .NotifyError _ _ => False
  | .Notify _ code _ _ => code = NotifCode_Done
  | _ => True

/-- A schedule step that sends no Error or custom report. -/
def Action.doneOnly : Action → Prop
  | .call c => c.doneOnly
  | _ => True

/-- A goroutine that has seen only Done reports: the report it sends or has
received is Done-coded, an `InterruptAll` was not started by `Wait`, and a
returned `Wait` returned `(Notif{}, true)`. -/
def Pc.doneOnly : Pc → Prop
  | .send n => n.code = NotifCode_Done
  | .waitLock n => n.code = NotifCode_Done
  | .iaLock _ k => k = none
  | .iaSend _ _ _ k => k = none
  | .done (.wait n b) => n = Notif.zero ∧ b = true
  | _ => True

/-- The supervisor is inside `Wait` and has received only Done reports. -/
def Pc.inWait : Pc → Prop
  | .waitStart => True
  | .waitRecv => True
  | .waitLock n => n.code = NotifCode_Done
  | _ => False

/-- A goroutine that is inside `NotifyDone`, or whose call has returned. -/
def Pc.isWorker : Pc → Prop
  | .ndLock _ => True
  | .send n => n.code = NotifCode_Done
  | .done _ => True
  | _ => False

/-- A goroutine that is still inside `NotifyDone`. -/
def Pc.pendingDone : Pc → Prop
  | .ndLock _ => True
  | .send _ => True
  | _ => False

/-- The situation of the claim: the mutex is free, goroutine `w` is the one
call of `Wait` and has not returned, every other goroutine is a worker inside
`NotifyDone` or a call that has returned, every worker still in the registry
has called `NotifyDone`, and while `Wait` is blocked in its receive some worker
is still inside `NotifyDone`. -/
def Draining (s : State) (w : Nat) : Prop :=
  s.ewg.safe = false ∧
  (∃ p, s.threads[w]? = some p ∧ p.inWait) ∧
  (∀ (t : Nat) (p : Pc), s.threads[t]? = some p → t ≠ w → p.isWorker) ∧
  (∀ e ∈ s.ewg.admins, ∃ (t : Nat) (a : Admin), s.threads[t]? = some (.ndLock a) ∧ a.id = e.1) ∧
  (s.threads[w]? = some .waitRecv → ∃ (t : Nat) (p : Pc), s.threads[t]? = some p ∧ p.pendingDone)

/-- `Wait` of goroutine `w` has returned `(Notif{}, true)`. -/
def Returned (s : State) (w : Nat) : Prop :=
  s.threads[w]? = some (.done (.wait Notif.zero true))

/-- The number of transitions a goroutine can still make in a draining group:
3 at the `Lock()` of `NotifyDone` (delete, be received, let `Wait` check), 2 in
its send, 1 for `Wait` before its receive. -/
def Pc.weight : Pc → Nat
  | .ndLock _ => 3
  | .send _ => 2
  | .waitStart => 1
  | .waitLock _ => 1
  | _ => 0

/-- The sum of the weights of all goroutines. -/
def State.weight (s : State) : Nat := (s.threads.map Pc.weight).sum

/-- A transition of the goroutines themselves: not the entry of a new call. -/
def Action.internal : Action → Prop
  | .call _ => False
  | _ => True

/-- Two workers; `Wait` is called and blocks in its receive; both workers call
`NotifyDone` and delete themselves from the registry; `Wait` receives the
report of the first and checks the registry. -/
def twoDoneSchedule : List Action :=
  [.call .Add, .step 0, .call .Add, .step 1, .call .Wait, .step 2,
   .call (.NotifyDone h0), .call (.NotifyDone h1), .step 3, .step 4, .recv 2 3, .step 2]

/-- The state at the end of `twoDoneSchedule`: `Wait` has returned while the
second worker is still blocked sending its Done report. -/
def twoDoneEnd : State :=
  { ewg := ⟨⟨⟨1⟩⟩, true, [], []⟩
    threads := [.done (.handle h0), .done (.handle h1), .done (.wait Notif.zero true),
                .done .unit, .send ⟨⟨1⟩, NotifCode_Done, none, none⟩]
    nextCh := 2
    issued := [h0, h1]
    removed := [⟨0⟩, ⟨1⟩] }

/-- One worker, which calls `NotifyDone` and deletes itself from the registry
before `Wait` is called. -/
def lateWaitSchedule : List Action :=
  [.call .Add, .step 0, .call (.NotifyDone h0), .step 1, .call .Wait, .step 2]

/-- The state at the end of `lateWaitSchedule`: `Wait` has returned without
receiving anything; the worker is still blocked sending its Done report. -/
def lateWaitEnd : State :=
  { ewg := ⟨⟨⟨0⟩⟩, false, [], []⟩
    threads := [.done (.handle h0), .send ⟨⟨0⟩, NotifCode_Done, none, none⟩,
                .done (.wait Notif.zero true)]
    nextCh := 1
    issued := [h0]
    removed := [⟨0⟩] }

/-- Two workers; `Wait` receives the Done report of the second; before it
locks the mutex, `Interrupt(h0.id, stop)` locks it and blocks on the first
worker, who then calls `NotifyDone` instead of polling. -/
def interferedSchedule : List Action :=
  [.call .Add, .step 0, .call .Add, .step 1, .call .Wait, .step 2,
   .call (.NotifyDone h1), .step 3, .recv 2 3, .call (.Interrupt ⟨0⟩ stop), .step 4,
   .call (.NotifyDone h0)]

/-- The state at the end of `interferedSchedule`. -/
def interferedEnd : State :=
  { ewg := ⟨⟨⟨1⟩⟩, true, [(⟨0⟩, h0)], []⟩
    threads := [.done (.handle h0), .done (.handle h1),
                .waitLock ⟨⟨1⟩, NotifCode_Done, none, none⟩, .done .unit,
                .intSend h0 stop, .ndLock h0]
    nextCh := 2
    issued := [h0, h1]
    removed := [⟨1⟩] }

/-- `N` workers are added, `Wait` is called, and every worker whose handle is
in `l` calls `NotifyDone`. -/
def drainingSchedule (N : Nat) (l : List Admin) : List Action :=
  addSchedule N ++ [.call .Wait] ++ l.map (fun a => Action.call (.NotifyDone a))

/-- The state of `twoDoneSchedule` before its last transition: `Wait` has
received the first worker's Done report and stands at its `Lock()`. -/
def twoDoneBefore : State :=
  { ewg := ⟨⟨⟨1⟩⟩, false, [], []⟩
    threads := [.done (.handle h0), .done (.handle h1),
                .waitLock ⟨⟨0⟩, NotifCode_Done, none, none⟩, .done .unit,
                .send ⟨⟨1⟩, NotifCode_Done, none, none⟩]
    nextCh := 2
    issued := [h0, h1]
    removed := [⟨0⟩, ⟨1⟩] }

/-- Two workers that never poll; `InterruptAll(stop)` ranges over the registry
starting with the second worker. -/
def laterFirstSchedule : List Action :=
  [.call .Add, .step 0, .call .Add, .step 1, .call (.InterruptAll stop), .range 2 [h1, h0]]

/-- The state at the end of `laterFirstSchedule`: `InterruptAll` is blocked
sending to the second worker, the first is still to be visited. -/
def laterFirstEnd : State :=
  { ewg := ⟨⟨⟨1⟩⟩, true, [(⟨0⟩, h0), (⟨1⟩, h1)], []⟩
    threads := [.done (.handle h0), .done (.handle h1), .iaSend h1 [h0] stop none]
    nextCh := 2
    issued := [h0, h1]
    removed := [] }

/-- Two workers that never poll; `Interrupt(h0.id, stop)` is blocked on the
first; then `Interrupt(h1.id, kill)` is called for the second. -/
def secondInterruptSchedule : List Action :=
  [.call .Add, .step 0, .call .Add, .step 1, .call (.Interrupt ⟨0⟩ stop), .step 2,
   .call (.Interrupt ⟨1⟩ kill)]

/-- The state at the end of `secondInterruptSchedule`. -/
def secondInterruptEnd : State :=
  { ewg := ⟨⟨⟨1⟩⟩, true, [(⟨0⟩, h0), (⟨1⟩, h1)], []⟩
    threads := [.done (.handle h0), .done (.handle h1), .intSend h0 stop, .intLock ⟨1⟩ kill]
    nextCh := 2
    issued := [h0, h1]
    removed := [] }

/-- The state at the end of `customCodeSchedule` after the two workers that
did not report have each called `PollInterrupt`. -/
def customCodePolled : State :=
  { customCodeEnd with
    threads := customCodeEnd.threads ++
      [.done (.poll Interrupt.zero false), .done (.poll Interrupt.zero false)] }

/-! ## Basic lemmas on schedules and transitions -/

theorem run_append (s : State) (as bs : List Action) :
    run s (as ++ bs) = (run s as).bind (fun s' => run s' bs) := by
  induction as generalizing s with
  | nil => simp [run]
  | cons a as ih =>
    simp only [List.cons_append, run]
    cases h : step s a with
    | none => simp
    | some s1 => simp [ih]

theorem run_preserves {P : State → Prop}
    (hstep : ∀ s a s', P s → step s a = some s' → P s') :
    ∀ (acts : List Action) (s s' : State), P s → run s acts = some s' → P s' := by
  intro acts
  induction acts with
  | nil => intro s s' hP h; simp [run] at h; exact h ▸ hP
  | cons a as ih =>
    intro s s' hP h
    simp only [run] at h
    cases h1 : step s a with
    | none => simp [h1] at h
    | some s1 =>
      simp [h1] at h
      exact ih s1 s' (hstep s a s1 hP h1) h

/-- The three ways a receive can happen. -/
theorem doRecv_cases (s : State) (t sd : Nat) (s' : State) (h : doRecv s t sd = some s') :
    (∃ n, s.threads[t]? = some .waitRecv ∧ s.threads[sd]? = some (.send n) ∧
      s' = { s with threads := (s.threads.set t (.waitLock n)).set sd (.done .unit) }) ∨
    (∃ a b inter, s.threads[t]? = some (.poll a) ∧ s.threads[sd]? = some (.intSend b inter) ∧
      a.interruptCh = b.interruptCh ∧
      s' = { s with ewg := { s.ewg with safe := false },
                    threads := (s.threads.set t (.done (.poll inter true))).set sd (.done .unit) }) ∨
    (∃ a b inter k, s.threads[t]? = some (.poll a) ∧ s.threads[sd]? = some (.iaSend b [] inter k) ∧
      a.interruptCh = b.interruptCh ∧
      s' = { s with ewg := { s.ewg with safe := false },
                    threads := (s.threads.set t (.done (.poll inter true))).set sd
                      (.done (iaRet k)) }) ∨
    (∃ a b c rest inter k, s.threads[t]? = some (.poll a) ∧
      s.threads[sd]? = some (.iaSend b (c :: rest) inter k) ∧
      a.interruptCh = b.interruptCh ∧
      s' = { s with threads := (s.threads.set t (.done (.poll inter true))).set sd
                      (.iaSend c rest inter k) }) := by
  unfold doRecv at h
  split at h
  · left; exact ⟨_, by assumption, by assumption, (Option.some.inj h).symm⟩
  · split at h
    · right; left; exact ⟨_, _, _, by assumption, by assumption, by assumption, (Option.some.inj h).symm⟩
    · cases h
  · split at h
    · split at h
      · right; right; left
        exact ⟨_, _, _, _, by assumption, by assumption, by assumption, (Option.some.inj h).symm⟩
      · right; right; right
        exact ⟨_, _, _, _, _, _, by assumption, by assumption, by assumption, (Option.some.inj h).symm⟩
    · cases h
  · cases h

theorem doCall_cases (s : State) (c : Call) (s' : State) (h : doCall s c = some s') :
    s' = { s with threads := s.threads ++ [c.entry] } ∧ ∀ a, c.handle = some a → a ∈ s.issued := by
  unfold doCall at h
  split at h
  · split at h
    · refine ⟨(Option.some.inj h).symm, ?_⟩
      intro a ha
      simp_all
    · cases h
  · refine ⟨(Option.some.inj h).symm, ?_⟩
    intro a ha
    simp_all

/-- The two ways an `InterruptAll` can start its `range`. -/
theorem doRange_cases (s : State) (t : Nat) (order : List Admin) (s' : State)
    (h : doRange s t order = some s') :
    ∃ (inter : Interrupt) (k : Option (Notif × Bool)),
      s.threads[t]? = some (.iaLock inter k) ∧ s.ewg.safe = false ∧
      order.Perm (s.ewg.admins.map (fun e => e.2)) ∧
      ((order = [] ∧ s' = { s with threads := s.threads.set t (.done (iaRet k)) }) ∨
        (∃ (a : Admin) (rest : List Admin), order = a :: rest ∧
          s' = { s with ewg := { s.ewg with safe := true },
                        threads := s.threads.set t (.iaSend a rest inter k) })) := by
  unfold doRange at h
  split at h
  · rename_i inter k hpc
    split at h
    · cases h
    · rename_i hf
      split at h
      · rename_i hperm
        refine ⟨inter, k, hpc, by simpa using hf, hperm, ?_⟩
        split at h
        · exact Or.inl ⟨rfl, (Option.some.inj h).symm⟩
        · exact Or.inr ⟨_, _, rfl, (Option.some.inj h).symm⟩
      · cases h
  · cases h

theorem get_set_cases {l : List Pc} {i j : Nat} {q p : Pc} (h : (l.set i q)[j]? = some p) :
    (j = i ∧ p = q) ∨ (j ≠ i ∧ l[j]? = some p) := by
  rw [List.getElem?_set] at h
  by_cases hij : i = j
  · subst hij
    simp only [if_true] at h
    split at h
    · left; exact ⟨rfl, (Option.some.inj h).symm⟩
    · cases h
  · simp only [hij, if_false] at h
    right; exact ⟨fun e => hij e.symm, h⟩

theorem get_append_cases {l : List Pc} {j : Nat} {q p : Pc} (h : (l ++ [q])[j]? = some p) :
    l[j]? = some p ∨ (j = l.length ∧ p = q) := by
  rcases Nat.lt_or_ge j l.length with h1 | h1
  · rw [List.getElem?_append_left h1] at h; exact Or.inl h
  · rw [List.getElem?_append_right h1] at h
    right
    rcases Nat.eq_or_lt_of_le h1 with h2 | h2
    · subst h2; simp at h; exact ⟨rfl, h.symm⟩
    · have : 0 < j - l.length := Nat.sub_pos_of_lt h2
      obtain ⟨m, hm⟩ : ∃ m, j - l.length = m + 1 := ⟨j - l.length - 1, by omega⟩
      rw [hm] at h; simp at h

theorem get_lt {l : List Pc} {j : Nat} {p : Pc} (h : l[j]? = some p) : j < l.length := by
  rcases Nat.lt_or_ge j l.length with h1 | h1
  · exact h1
  · rw [List.getElem?_eq_none h1] at h; cases h

theorem entry_offer (c : Call) : c.entry.offer = none := by
  cases c <;> rfl

theorem stuckNew_offer (p : Pc) (h : p.StuckNew) : p.offer = none := by
  rcases h with ⟨c, rfl⟩ | rfl | rfl | rfl | ⟨n, rfl⟩ | rfl
  · exact entry_offer c
  all_goals rfl

theorem stuck_set (s : State) (t : Nat) (p0 q : Pc) (h : Stuck s)
    (hpc : s.threads[t]? = some p0) (hp0 : p0.atLock = false) (hq : q.StuckNew) :
    Stuck { s with threads := s.threads.set t q } ∧
      (∀ (j : Nat) (p : Pc), s.threads[j]? = some p → p.atLock = true →
        (s.threads.set t q)[j]? = some p) ∧
      ∀ p ∈ s.threads.set t q, p ∈ s.threads ∨ p.StuckNew := by
  refine ⟨⟨h.1, ?_⟩, ?_, ?_⟩
  · intro p hp
    rcases List.mem_or_eq_of_mem_set hp with h1 | h1
    · exact h.2 p h1
    · subst h1; exact stuckNew_offer _ hq
  · intro j p hj hp
    have hne : t ≠ j := by
      rintro rfl
      rw [hpc] at hj
      cases hj
      rw [hp0] at hp; cases hp
    rw [List.getElem?_set_ne hne]; exact hj
  · intro p hp
    rcases List.mem_or_eq_of_mem_set hp with h1 | h1
    · exact Or.inl h1
    · subst h1; exact Or.inr hq

/-- While the mutex is stuck it stays stuck: the group does not change, a
goroutine waiting at a `Lock()` stays there, and the only new program counters
are those of `Pc.StuckNew`. -/
theorem stuck_step (s : State) (a : Action) (s' : State) (h : Stuck s)
    (hs : step s a = some s') :
    Stuck s' ∧ s'.ewg = s.ewg ∧
      (∀ (t : Nat) (p : Pc), s.threads[t]? = some p → p.atLock = true →
        s'.threads[t]? = some p) ∧
      ∀ p ∈ s'.threads, p ∈ s.threads ∨ p.StuckNew := by
  have hl := h.1
  have hno := h.2
  cases a with
  | call c =>
    obtain ⟨key, -⟩ := doCall_cases s c s' hs
    subst key
    refine ⟨⟨hl, ?_⟩, rfl, ?_, ?_⟩
    · intro p hp
      simp only [List.mem_append, List.mem_singleton] at hp
      rcases hp with hp | hp
      · exact hno p hp
      · subst hp; exact entry_offer c
    · intro t p ht _
      simp only
      rw [List.getElem?_append_left (get_lt ht)]; exact ht
    · intro p hp
      simp only [List.mem_append, List.mem_singleton] at hp
      rcases hp with hp | hp
      · exact Or.inl hp
      · exact Or.inr (Or.inl ⟨c, hp⟩)
  | step t =>
    simp only [step] at hs
    cases hpc : s.threads[t]? with
    | none => simp [doStep, hpc] at hs
    | some pc =>
      cases pc <;> simp [doStep, hpc, hl] at hs
      case poll a =>
        obtain ⟨-, rfl⟩ := hs
        have := stuck_set s t _ (.done (.poll Interrupt.zero false)) h hpc rfl
          (Or.inr (Or.inl rfl))
        exact ⟨this.1, rfl, this.2⟩
      case waitStart =>
        split at hs
        · cases hs
          have := stuck_set s t _ (.done (.wait Notif.zero true)) h hpc rfl
            (Or.inr (Or.inr (Or.inl rfl)))
          exact ⟨this.1, rfl, this.2⟩
        · cases hs
          have := stuck_set s t _ .waitRecv h hpc rfl (Or.inr (Or.inr (Or.inr (Or.inl rfl))))
          exact ⟨this.1, rfl, this.2⟩
  | recv t sd =>
    simp only [step] at hs
    rcases doRecv_cases s t sd s' hs with ⟨n, ht, hsd, rfl⟩ | ⟨a, b, inter, -, hsd, -, -⟩ |
      ⟨a, b, inter, k, -, hsd, -, -⟩ | ⟨a, b, c, rest, inter, k, -, hsd, -, -⟩
    · have h1 := stuck_set s t _ (.waitLock n) h ht rfl
        (Or.inr (Or.inr (Or.inr (Or.inr (Or.inl ⟨n, rfl⟩)))))
      have hsd' : (s.threads.set t (.waitLock n))[sd]? = some (.send n) := by
        have hne : t ≠ sd := by
          rintro rfl; rw [ht] at hsd; cases hsd
        rw [List.getElem?_set_ne hne]; exact hsd
      have h2 := stuck_set { s with threads := s.threads.set t (.waitLock n) } sd _ (.done .unit)
        h1.1 hsd' rfl (Or.inr (Or.inr (Or.inr (Or.inr (Or.inr rfl)))))
      refine ⟨h2.1, rfl, ?_, ?_⟩
      · intro j p hj hp
        exact h2.2.1 j p (h1.2.1 j p hj hp) hp
      · intro p hp
        rcases h2.2.2 p hp with h3 | h3
        · exact h1.2.2 p h3
        · exact Or.inr h3
    · have := hno _ (List.mem_iff_getElem?.mpr ⟨_, hsd⟩); simp [Pc.offer] at this
    · have := hno _ (List.mem_iff_getElem?.mpr ⟨_, hsd⟩); simp [Pc.offer] at this
    · have := hno _ (List.mem_iff_getElem?.mpr ⟨_, hsd⟩); simp [Pc.offer] at this
  | range t order =>
    simp only [step] at hs
    obtain ⟨inter, k, -, hf, -, -⟩ := doRange_cases s t order s' hs
    rw [hl] at hf; cases hf

/-- The same along a whole schedule. -/
theorem stuck_run (acts : List Action) (s s' : State) (h : Stuck s)
    (hr : run s acts = some s') :
    Stuck s' ∧ s'.ewg = s.ewg ∧
      (∀ (t : Nat) (p : Pc), s.threads[t]? = some p → p.atLock = true →
        s'.threads[t]? = some p) ∧
      ∀ p ∈ s'.threads, p ∈ s.threads ∨ p.StuckNew := by
  induction acts generalizing s with
  | nil =>
    simp only [run, Option.some.injEq] at hr
    subst hr
    exact ⟨h, rfl, fun _ _ hp _ => hp, fun _ hp => Or.inl hp⟩
  | cons a as ih =>
    simp only [run] at hr
    cases h1 : step s a with
    | none => simp [h1] at hr
    | some s1 =>
      simp only [h1, Option.some_bind] at hr
      obtain ⟨hS, he, hk, hn⟩ := stuck_step s a s1 h h1
      obtain ⟨hS', he', hk', hn'⟩ := ih s1 hS hr
      refine ⟨hS', he'.trans he, fun t p hp hl => hk' t p (hk t p hp hl) hl, ?_⟩
      intro p hp
      rcases hn' p hp with h2 | h2
      · exact hn p h2
      · exact Or.inr h2

theorem entry_waitOk (c : Call) : c.entry.waitOk := by
  cases c <;> simp [Call.entry, Pc.waitOk, iaRet, Ret.waitOk]

theorem waitOk_set {l : List Pc} {t : Nat} {q : Pc} (h : ∀ p ∈ l, p.waitOk) (hq : q.waitOk) :
    ∀ p ∈ l.set t q, p.waitOk := by
  intro p hp
  rcases List.mem_or_eq_of_mem_set hp with h1 | h1
  · exact h p h1
  · subst h1; exact hq

theorem waitOk_step (s : State) (a : Action) (s' : State)
    (h : ∀ p ∈ s.threads, p.waitOk) (hs : step s a = some s') :
    ∀ p ∈ s'.threads, p.waitOk := by
  cases a with
  | call c =>
    obtain ⟨key, -⟩ := doCall_cases s c s' hs
    subst key
    intro p hp
    simp only [List.mem_append, List.mem_singleton] at hp
    rcases hp with hp | hp
    · exact h p hp
    · subst hp; exact entry_waitOk c
  | step t =>
    simp only [step] at hs
    cases hpc : s.threads[t]? with
    | none => simp [doStep, hpc] at hs
    | some pc =>
      have hin : pc ∈ s.threads := List.mem_iff_getElem?.mpr ⟨_, hpc⟩
      cases pc <;> simp only [doStep, hpc] at hs
      case addLock =>
        split at hs
        · cases hs
        · cases hs; exact waitOk_set h (by simp [Pc.waitOk, Ret.waitOk])
      case setLock =>
        split at hs
        · cases hs
        · cases hs; exact waitOk_set h (by simp [Pc.waitOk, Ret.waitOk])
      case rmLock =>
        split at hs
        · cases hs
        · cases hs; exact waitOk_set h (by simp [Pc.waitOk, Ret.waitOk])
      case ndLock =>
        split at hs
        · cases hs
        · cases hs; exact waitOk_set h (by simp [Pc.waitOk])
      case send => cases hs
      case poll =>
        split at hs
        · cases hs
        · cases hs; exact waitOk_set h (by simp [Pc.waitOk, Ret.waitOk])
      case intLock =>
        split at hs
        · cases hs
        · split at hs
          · cases hs; exact waitOk_set h (by simp [Pc.waitOk, Ret.waitOk])
          · cases hs; exact waitOk_set h (by simp [Pc.waitOk])
      case intSend => cases hs
      case iaLock => cases hs
      case iaSend => cases hs
      case waitStart =>
        split at hs
        · cases hs; exact waitOk_set h (by simp [Pc.waitOk, Ret.waitOk])
        · cases hs; exact waitOk_set h (by simp [Pc.waitOk])
      case waitRecv => cases hs
      case waitLock n =>
        split at hs
        · cases hs
        · split at hs
          · rename_i hcode
            split at hs
            · cases hs; exact waitOk_set h (by simp [Pc.waitOk, Ret.waitOk, iaRet, hcode])
            · cases hs; exact waitOk_set h (by simp [Pc.waitOk, Ret.waitOk, hcode])
          · split at hs
            · cases hs; exact waitOk_set h (by simp [Pc.waitOk, Ret.waitOk])
            · cases hs; exact waitOk_set h (by simp [Pc.waitOk])
      case done => cases hs
  | recv t sd =>
    simp only [step] at hs
    rcases doRecv_cases s t sd s' hs with ⟨n, -, -, rfl⟩ | ⟨a, b, inter, -, -, -, rfl⟩ |
      ⟨a, b, inter, k, -, hsd, -, rfl⟩ | ⟨a, b, c, rest, inter, k, -, hsd, -, rfl⟩
    · exact waitOk_set (waitOk_set h (by simp [Pc.waitOk])) (by simp [Pc.waitOk, Ret.waitOk])
    · exact waitOk_set (waitOk_set h (by simp [Pc.waitOk, Ret.waitOk]))
        (by simp [Pc.waitOk, Ret.waitOk])
    · have hk : (iaRet k).waitOk := h _ (List.mem_iff_getElem?.mpr ⟨_, hsd⟩)
      exact waitOk_set (waitOk_set h (by simp [Pc.waitOk, Ret.waitOk])) hk
    · have hk : (iaRet k).waitOk := h _ (List.mem_iff_getElem?.mpr ⟨_, hsd⟩)
      exact waitOk_set (waitOk_set h (by simp [Pc.waitOk, Ret.waitOk])) hk
  | range t order =>
    simp only [step] at hs
    obtain ⟨inter, k, hpc, -, -, hcase⟩ := doRange_cases s t order s' hs
    have hk : (iaRet k).waitOk := h _ (List.mem_iff_getElem?.mpr ⟨_, hpc⟩)
    rcases hcase with ⟨-, rfl⟩ | ⟨a, rest, -, rfl⟩
    · exact waitOk_set h hk
    · exact waitOk_set h hk

theorem waitOk_reachable (s : State) (hr : Reachable s) : ∀ p ∈ s.threads, p.waitOk := by
  obtain ⟨acts, hacts⟩ := hr
  exact run_preserves (P := fun s => ∀ p ∈ s.threads, p.waitOk) waitOk_step acts State.init s
    (by intro p hp; cases hp) hacts
theorem mapGet_mapSet {κ ν : Type} [DecidableEq κ] (m : List (κ × ν)) (k : κ) (v : ν) :
    mapGet (mapSet m k v) k = some v := by
  unfold mapGet mapSet mapDelete
  rw [List.find?_append]
  have h : (m.filter (fun e => decide (e.1 ≠ k))).find? (fun e => decide (e.1 = k)) = none := by
    rw [List.find?_eq_none]
    intro x hx
    simp only [List.mem_filter, decide_eq_true_eq] at hx
    simp [hx.2]
  rw [h]
  simp

theorem mapGet_mapDelete {κ ν : Type} [DecidableEq κ] (m : List (κ × ν)) (k : κ) :
    mapGet (mapDelete m k) k = none := by
  unfold mapGet mapDelete
  have h : (m.filter (fun e => decide (e.1 ≠ k))).find? (fun e => decide (e.1 = k)) = none := by
    rw [List.find?_eq_none]
    intro x hx
    simp only [List.mem_filter, decide_eq_true_eq] at hx
    simp [hx.2]
  rw [h]
  rfl

theorem stuckNew_not_polled (p : Pc) (h : p.StuckNew) (i : Interrupt) :
    p ≠ .done (.poll i true) := by
  rcases h with ⟨c, rfl⟩ | rfl | rfl | rfl | ⟨n, rfl⟩ | rfl
  · cases c <;> simp [Call.entry]
  all_goals simp
theorem noOffer_set {l : List Pc} {t : Nat} {q : Pc} (h : ∀ p ∈ l, p.offer = none)
    (hq : q.offer = none) : ∀ p ∈ l.set t q, p.offer = none := by
  intro p hp
  rcases List.mem_or_eq_of_mem_set hp with h1 | h1
  · exact h p h1
  · subst h1; exact hq

theorem atMostOne_set {l : List Pc} {t : Nat} {q : Pc} (h : AtMostOne l)
    (hq : q.offer ≠ none → ∀ (j : Nat) (p : Pc), l[j]? = some p → p.offer ≠ none → j = t) :
    AtMostOne (l.set t q) := by
  intro t1 t2 p1 p2 h1 h2 o1 o2
  rcases get_set_cases h1 with ⟨e1, rfl⟩ | ⟨n1, g1⟩ <;>
    rcases get_set_cases h2 with ⟨e2, rfl⟩ | ⟨n2, g2⟩
  · rw [e1, e2]
  · exact absurd (hq o1 t2 p2 g2 o2) n2
  · exact absurd (hq o2 t1 p1 g1 o1) n1
  · exact h t1 t2 p1 p2 g1 g2 o1 o2

theorem atMostOne_of_noOffer {l : List Pc} (h : ∀ p ∈ l, p.offer = none) : AtMostOne l := by
  intro t1 t2 p1 p2 h1 _ o1 _
  exact absurd (h p1 (List.mem_iff_getElem?.mpr ⟨_, h1⟩)) o1

/-- Replacing a non-sender by a non-sender keeps `SendersOk`, whatever happens
to the mutex, as long as it is not unlocked. -/
theorem sendersOk_set_quiet (s : State) (h : SendersOk s) (t : Nat) (q : Pc)
    (g : ErrorWaitGroup) (n : Nat) (iss : List Admin) (rem : List AdminId)
    (hq : q.offer = none) (hsafe : g.safe = false → s.ewg.safe = false) :
    SendersOk ⟨g, s.threads.set t q, n, iss, rem⟩ := by
  refine ⟨?_, ?_⟩
  · intro hf
    exact noOffer_set (h.1 (hsafe hf)) hq
  · exact atMostOne_set h.2 (fun hq' => absurd hq hq')

theorem sendersOk_step (s : State) (a : Action) (s' : State) (h : SendersOk s)
    (hs : step s a = some s') : SendersOk s' := by
  cases a with
  | call c =>
    obtain ⟨key, -⟩ := doCall_cases s c s' hs
    subst key
    refine ⟨?_, ?_⟩
    · intro hf p hp
      simp only [List.mem_append, List.mem_singleton] at hp
      rcases hp with hp | hp
      · exact h.1 hf p hp
      · subst hp; exact entry_offer c
    · intro t1 t2 p1 p2 h1 h2 o1 o2
      rcases get_append_cases h1 with g1 | ⟨-, rfl⟩
      · rcases get_append_cases h2 with g2 | ⟨-, rfl⟩
        · exact h.2 t1 t2 p1 p2 g1 g2 o1 o2
        · exact absurd (entry_offer c) o2
      · exact absurd (entry_offer c) o1
  | step t =>
    simp only [step] at hs
    cases hpc : s.threads[t]? with
    | none => simp [doStep, hpc] at hs
    | some pc =>
      cases pc <;> simp only [doStep, hpc] at hs
      case addLock =>
        split at hs
        · cases hs
        · cases hs; refine sendersOk_set_quiet s h t _ _ _ _ _ ?_ ?_ <;> simp_all [Pc.offer, ErrorWaitGroup.Add, ErrorWaitGroup.SetAutoInterrupt, ErrorWaitGroup.RemoveAutoInterrupt, ErrorWaitGroup.deleteAdmin]
      case setLock =>
        split at hs
        · cases hs
        · cases hs; refine sendersOk_set_quiet s h t _ _ _ _ _ ?_ ?_ <;> simp_all [Pc.offer, ErrorWaitGroup.Add, ErrorWaitGroup.SetAutoInterrupt, ErrorWaitGroup.RemoveAutoInterrupt, ErrorWaitGroup.deleteAdmin]
      case rmLock =>
        split at hs
        · cases hs
        · cases hs; refine sendersOk_set_quiet s h t _ _ _ _ _ ?_ ?_ <;> simp_all [Pc.offer, ErrorWaitGroup.Add, ErrorWaitGroup.SetAutoInterrupt, ErrorWaitGroup.RemoveAutoInterrupt, ErrorWaitGroup.deleteAdmin]
      case ndLock =>
        split at hs
        · cases hs
        · cases hs; refine sendersOk_set_quiet s h t _ _ _ _ _ ?_ ?_ <;> simp_all [Pc.offer, ErrorWaitGroup.Add, ErrorWaitGroup.SetAutoInterrupt, ErrorWaitGroup.RemoveAutoInterrupt, ErrorWaitGroup.deleteAdmin]
      case send => cases hs
      case poll =>
        split at hs
        · cases hs
        · cases hs; refine sendersOk_set_quiet s h t _ _ _ _ _ ?_ ?_ <;> simp_all [Pc.offer, ErrorWaitGroup.Add, ErrorWaitGroup.SetAutoInterrupt, ErrorWaitGroup.RemoveAutoInterrupt, ErrorWaitGroup.deleteAdmin]
      case intLock =>
        split at hs
        · cases hs
        · rename_i hf
          have hf' : s.ewg.safe = false := by simpa using hf
          split at hs
          · cases hs; refine sendersOk_set_quiet s h t _ _ _ _ _ ?_ ?_ <;> simp_all [Pc.offer, ErrorWaitGroup.Add, ErrorWaitGroup.SetAutoInterrupt, ErrorWaitGroup.RemoveAutoInterrupt, ErrorWaitGroup.deleteAdmin]
          · cases hs
            exact ⟨fun hc => (by cases hc), atMostOne_set h.2 (fun _ j p hj ho =>
              absurd (h.1 hf' p (List.mem_iff_getElem?.mpr ⟨_, hj⟩)) ho)⟩
      case intSend => cases hs
      case iaLock => cases hs
      case iaSend => cases hs
      case waitStart =>
        split at hs
        · cases hs; refine sendersOk_set_quiet s h t _ _ _ _ _ ?_ ?_ <;> simp_all [Pc.offer, ErrorWaitGroup.Add, ErrorWaitGroup.SetAutoInterrupt, ErrorWaitGroup.RemoveAutoInterrupt, ErrorWaitGroup.deleteAdmin]
        · cases hs; refine sendersOk_set_quiet s h t _ _ _ _ _ ?_ ?_ <;> simp_all [Pc.offer, ErrorWaitGroup.Add, ErrorWaitGroup.SetAutoInterrupt, ErrorWaitGroup.RemoveAutoInterrupt, ErrorWaitGroup.deleteAdmin]
      case waitRecv => cases hs
      case waitLock n =>
        split at hs
        · cases hs
        · split at hs
          · split at hs
            · cases hs; refine sendersOk_set_quiet s h t _ _ _ _ _ ?_ ?_ <;> simp_all [Pc.offer, ErrorWaitGroup.Add, ErrorWaitGroup.SetAutoInterrupt, ErrorWaitGroup.RemoveAutoInterrupt, ErrorWaitGroup.deleteAdmin]
            · cases hs; refine sendersOk_set_quiet s h t _ _ _ _ _ ?_ ?_ <;> simp_all [Pc.offer, ErrorWaitGroup.Add, ErrorWaitGroup.SetAutoInterrupt, ErrorWaitGroup.RemoveAutoInterrupt, ErrorWaitGroup.deleteAdmin]
          · split at hs
            · cases hs; refine sendersOk_set_quiet s h t _ _ _ _ _ ?_ ?_ <;> simp_all [Pc.offer, ErrorWaitGroup.Add, ErrorWaitGroup.SetAutoInterrupt, ErrorWaitGroup.RemoveAutoInterrupt, ErrorWaitGroup.deleteAdmin]
            · cases hs; refine sendersOk_set_quiet s h t _ _ _ _ _ ?_ ?_ <;> simp_all [Pc.offer, ErrorWaitGroup.Add, ErrorWaitGroup.SetAutoInterrupt, ErrorWaitGroup.RemoveAutoInterrupt, ErrorWaitGroup.deleteAdmin]
      case done => cases hs
  | recv t sd =>
    simp only [step] at hs
    rcases doRecv_cases s t sd s' hs with ⟨n, ht, hsd, rfl⟩ | ⟨a, b, inter, ht, hsd, -, rfl⟩ |
      ⟨a, b, inter, k, ht, hsd, -, rfl⟩ | ⟨a, b, c, rest, inter, k, ht, hsd, -, rfl⟩
    · have h1 := sendersOk_set_quiet s h t (.waitLock n) s.ewg s.nextCh s.issued s.removed rfl
        (fun e => e)
      exact sendersOk_set_quiet _ h1 sd (.done .unit) s.ewg s.nextCh s.issued s.removed rfl
        (fun e => e)
    all_goals
      have hone : ∀ (j : Nat) (p : Pc), s.threads[j]? = some p → p.offer ≠ none → j = sd :=
        fun j p hj ho => h.2 j sd p _ hj hsd ho (by simp [Pc.offer])
      have hne : t ≠ sd := by
        rintro rfl; rw [ht] at hsd; cases hsd
      have hquiet : ∀ (q1 q2 : Pc), q1.offer = none → q2.offer = none →
          ∀ p ∈ (s.threads.set t q1).set sd q2, p.offer = none := by
        intro q1 q2 hq1 hq2 p hp
        rcases List.mem_or_eq_of_mem_set hp with h1 | rfl
        · rcases List.mem_or_eq_of_mem_set h1 with h2 | rfl
          · obtain ⟨j, hj⟩ := List.mem_iff_getElem?.mp hp
            rcases get_set_cases hj with ⟨-, rfl⟩ | ⟨n1, g1⟩
            · exact hq2
            · rcases get_set_cases g1 with ⟨-, rfl⟩ | ⟨-, g2⟩
              · exact hq1
              · by_contra hc
                exact n1 (hone j p g2 hc)
          · exact hq1
        · exact hq2
    · exact ⟨fun _ => hquiet _ _ rfl rfl, atMostOne_of_noOffer (hquiet _ _ rfl rfl)⟩
    · refine ⟨fun _ => hquiet _ _ rfl ?_, atMostOne_of_noOffer (hquiet _ _ rfl ?_)⟩ <;>
        cases k <;> rfl
    · refine ⟨?_, ?_⟩
      · intro hf p _
        have := h.1 hf _ (List.mem_iff_getElem?.mpr ⟨_, hsd⟩)
        simp [Pc.offer] at this
      · refine atMostOne_set (atMostOne_set h.2 (fun hq => absurd rfl hq)) ?_
        intro _ j p hj ho
        rcases get_set_cases hj with ⟨-, rfl⟩ | ⟨-, g1⟩
        · exact absurd rfl ho
        · exact hone j p g1 ho
  | range t order =>
    simp only [step] at hs
    obtain ⟨inter, k, hpc, hf, -, hcase⟩ := doRange_cases s t order s' hs
    rcases hcase with ⟨-, rfl⟩ | ⟨a, rest, -, rfl⟩
    · exact sendersOk_set_quiet s h t _ s.ewg s.nextCh s.issued s.removed
        (by cases k <;> rfl) (fun e => e)
    · exact ⟨fun hc => (by cases hc), atMostOne_set h.2 (fun _ j p hj ho =>
        absurd (h.1 hf p (List.mem_iff_getElem?.mpr ⟨_, hj⟩)) ho)⟩

theorem sendersOk_reachable (s : State) (hr : Reachable s) : SendersOk s := by
  obtain ⟨acts, hacts⟩ := hr
  refine run_preserves sendersOk_step acts State.init s ?_ hacts
  exact ⟨fun _ p hp => (by cases hp), fun t1 _ p1 _ h1 => (by simp [State.init] at h1)⟩

theorem reachable_step (s : State) (a : Action) (s' : State) (hr : Reachable s)
    (hs : step s a = some s') : Reachable s' := by
  obtain ⟨acts, hacts⟩ := hr
  refine ⟨acts ++ [a], ?_⟩
  rw [run_append, hacts]
  simp [run, hs]

theorem reachable_run (acts : List Action) (s s' : State) (hr : Reachable s)
    (hs : run s acts = some s') : Reachable s' := by
  obtain ⟨acts0, hacts⟩ := hr
  refine ⟨acts0 ++ acts, ?_⟩
  rw [run_append, hacts]
  simpa using hs
theorem not_pending_of_free (s : State) (h : SendersOk s) (hfree : s.ewg.safe = false)
    (ch : Nat) (i : Interrupt) : ¬ s.pending ch i := by
  rintro ⟨t, p, hp, ho⟩
  have := h.1 hfree p (List.mem_iff_getElem?.mpr ⟨_, hp⟩)
  rw [this] at ho; cases ho

/-- While a goroutine is blocked sending an interrupt, that interrupt is the
only one pending. -/
theorem pending_unique (s : State) (hok : SendersOk s) (t : Nat) (p : Pc) (ch : Nat)
    (inter : Interrupt) (hpc : s.threads[t]? = some p) (hoff : p.offer = some (ch, inter))
    (ch' : Nat) (i : Interrupt) (h : s.pending ch' i) : ch' = ch ∧ i = inter := by
  obtain ⟨j, q, hj, ho⟩ := h
  have hjt : j = t := hok.2 j t q p hj hpc (by rw [ho]; simp) (by rw [hoff]; simp)
  subst hjt
  rw [hpc] at hj
  cases hj
  rw [hoff] at ho
  simp only [Option.some.injEq, Prod.mk.injEq] at ho
  exact ⟨ho.1.symm, ho.2.symm⟩

/-- While the mutex is stuck no interrupt is pending. -/
theorem not_pending_of_stuck (s : State) (h : Stuck s) (ch : Nat) (i : Interrupt) :
    ¬ s.pending ch i := by
  rintro ⟨t, p, hp, ho⟩
  have := h.2 p (List.mem_iff_getElem?.mpr ⟨_, hp⟩)
  rw [this] at ho; cases ho

theorem getElem?_set_self_of_some {l : List Pc} {t : Nat} {p q : Pc} (h : l[t]? = some p) :
    (l.set t q)[t]? = some q := by
  rw [List.getElem?_set]; simp [get_lt h]

theorem doRecv_poll_intSend (s : State) (r t : Nat) (a b : Admin) (inter : Interrupt)
    (hr : s.threads[r]? = some (.poll b)) (ht : s.threads[t]? = some (.intSend a inter))
    (hb : b.interruptCh = a.interruptCh) :
    doRecv s r t =
      some { s with ewg := { s.ewg with safe := false },
                    threads := (s.threads.set r (.done (.poll inter true))).set t
                      (.done .unit) } := by
  simp only [doRecv, hr, ht, hb, if_true]

theorem get_set_set_first {l : List Pc} {r t : Nat} {p q1 q2 : Pc} (hr : l[r]? = some p)
    (hne : t ≠ r) : ((l.set r q1).set t q2)[r]? = some q1 := by
  rw [List.getElem?_set_ne hne]
  exact getElem?_set_self_of_some hr

/-- A goroutine blocked sending an interrupt stays blocked, with the mutex
locked and every goroutine at a `Lock()` waiting, under every action that is
not a receive from it. -/
theorem blocked_step (s : State) (hok : SendersOk s) (t : Nat) (p : Pc)
    (hpc : s.threads[t]? = some p) (hoff : p.offer ≠ none) (a : Action) (s' : State)
    (hs : step s a = some s') (hna : ∀ r, a ≠ .recv r t) :
    s'.threads[t]? = some p ∧ s'.ewg.safe = true ∧
      (∀ (j : Nat) (q : Pc), s.threads[j]? = some q → q.atLock = true →
        s'.threads[j]? = some q) ∧ s'.ewg = s.ewg := by
  have hsafe : s.ewg.safe = true := by
    cases hf : s.ewg.safe with
    | true => rfl
    | false => exact absurd (hok.1 hf p (List.mem_iff_getElem?.mpr ⟨_, hpc⟩)) hoff
  cases a with
  | call c =>
    obtain ⟨key, -⟩ := doCall_cases s c s' hs
    subst key
    refine ⟨?_, hsafe, ?_, rfl⟩
    · simp only; rw [List.getElem?_append_left (get_lt hpc)]; exact hpc
    · intro j q hj _
      simp only; rw [List.getElem?_append_left (get_lt hj)]; exact hj
  | step u =>
    simp only [step] at hs
    cases hu : s.threads[u]? with
    | none => simp [doStep, hu] at hs
    | some pc =>
      have hne : u ≠ t := by
        rintro rfl
        rw [hpc] at hu; cases hu
        cases p <;> simp [Pc.offer] at hoff <;> simp [doStep, hpc] at hs
      have keep : ∀ (q0 : Pc) (j : Nat) (q : Pc), s.threads[j]? = some q → j ≠ u →
          (s.threads.set u q0)[j]? = some q := by
        intro q0 j q hj hju
        rw [List.getElem?_set_ne (fun e => hju e.symm)]; exact hj
      cases pc <;> simp [doStep, hu, hsafe] at hs
      case poll b =>
        obtain ⟨-, rfl⟩ := hs
        refine ⟨keep _ t p hpc (fun e => hne e.symm), hsafe, ?_, rfl⟩
        intro j q hj hq
        refine keep _ j q hj ?_
        rintro rfl; rw [hu] at hj; cases hj; cases hq
      case waitStart =>
        split at hs <;> cases hs
        all_goals
          refine ⟨keep _ t p hpc (fun e => hne e.symm), hsafe, ?_, rfl⟩
          intro j q hj hq
          refine keep _ j q hj ?_
          rintro rfl; rw [hu] at hj; cases hj; cases hq
  | recv r sd =>
    simp only [step] at hs
    rcases doRecv_cases s r sd s' hs with ⟨n, hr, hsd, rfl⟩ | ⟨a, b, inter, -, hsd, -, -⟩ |
      ⟨a, b, inter, k, -, hsd, -, -⟩ | ⟨a, b, c, rest, inter, k, -, hsd, -, -⟩
    · have keep : ∀ (j : Nat) (q : Pc), s.threads[j]? = some q → j ≠ r → j ≠ sd →
          ((s.threads.set r (.waitLock n)).set sd (.done .unit))[j]? = some q := by
        intro j q hj h1 h2
        rw [List.getElem?_set_ne (fun e => h2 e.symm), List.getElem?_set_ne (fun e => h1 e.symm)]
        exact hj
      refine ⟨keep t p hpc ?_ ?_, hsafe, ?_, rfl⟩
      · rintro rfl; rw [hpc] at hr; cases hr; exact hoff rfl
      · rintro rfl; rw [hpc] at hsd; cases hsd; exact hoff rfl
      · intro j q hj hq
        refine keep j q hj ?_ ?_
        · rintro rfl; rw [hr] at hj; cases hj; cases hq
        · rintro rfl; rw [hsd] at hj; cases hj; cases hq
    all_goals
      have := hok.2 sd t _ p hsd hpc (by simp [Pc.offer]) hoff
      exact absurd (this ▸ rfl) (hna r)
  | range u order =>
    simp only [step] at hs
    obtain ⟨inter, k, -, hf, -, -⟩ := doRange_cases s u order s' hs
    rw [hsafe] at hf; cases hf

/-- The same along a schedule without a receive from the blocked sender. -/
theorem blocked_run (acts : List Action) (s : State) (hok : SendersOk s) (t : Nat) (p : Pc)
    (hpc : s.threads[t]? = some p) (hoff : p.offer ≠ none) (s' : State)
    (hr : run s acts = some s') (hna : ∀ r, Action.recv r t ∉ acts) :
    s'.threads[t]? = some p ∧ s'.ewg.safe = true ∧
      (∀ (j : Nat) (q : Pc), s.threads[j]? = some q → q.atLock = true →
        s'.threads[j]? = some q) ∧ s'.ewg = s.ewg := by
  induction acts generalizing s with
  | nil =>
    simp only [run, Option.some.injEq] at hr
    subst hr
    refine ⟨hpc, ?_, fun _ _ hj _ => hj, rfl⟩
    cases hf : s.ewg.safe with
    | true => rfl
    | false => exact absurd (hok.1 hf p (List.mem_iff_getElem?.mpr ⟨_, hpc⟩)) hoff
  | cons a as ih =>
    simp only [run] at hr
    cases h1 : step s a with
    | none => simp [h1] at hr
    | some s1 =>
      simp only [h1, Option.some_bind] at hr
      have hna1 : ∀ r, a ≠ .recv r t := by
        intro r e
        exact hna r (by rw [e]; exact List.mem_cons_self _ _)
      obtain ⟨k1, -, k3, k4⟩ := blocked_step s hok t p hpc hoff a s1 h1 hna1
      obtain ⟨m1, m2, m3, m4⟩ := ih s1 (sendersOk_step s a s1 hok h1) k1 hr
        (fun r hmem => hna r (List.mem_cons_of_mem _ hmem))
      exact ⟨m1, m2, fun j q hj hq => m3 j q (k3 j q hj hq) hq, m4.trans k4⟩

/-- How one transition acts on the id generator, the registry and the history
variables: it leaves them alone, or it is the critical section of `Add`, or it
is the critical section of `NotifyDone`. -/
theorem step_frame (s : State) (a : Action) (s' : State) (hs : step s a = some s') :
    (s'.ewg.idGen = s.ewg.idGen ∧ s'.ewg.admins = s.ewg.admins ∧ s'.issued = s.issued ∧
      s'.removed = s.removed) ∨
    (∃ t, a = .step t ∧ s.threads[t]? = some .addLock ∧ s.ewg.safe = false ∧
      s' = { s with ewg := (s.ewg.Add s.nextCh).2, nextCh := s.nextCh + 1,
                    issued := s.issued ++ [(s.ewg.Add s.nextCh).1],
                    threads := s.threads.set t (.done (.handle (s.ewg.Add s.nextCh).1)) }) ∨
    (∃ t h, a = .step t ∧ s.threads[t]? = some (.ndLock h) ∧ s.ewg.safe = false ∧
      s' = { s with ewg := s.ewg.deleteAdmin h, removed := s.removed ++ [h.id],
                    threads := s.threads.set t (.send ⟨h.id, NotifCode_Done, none, none⟩) }) := by
  cases a with
  | call c =>
    obtain ⟨key, -⟩ := doCall_cases s c s' hs
    subst key
    exact Or.inl ⟨rfl, rfl, rfl, rfl⟩
  | step t =>
    simp only [step] at hs
    cases hpc : s.threads[t]? with
    | none => simp [doStep, hpc] at hs
    | some pc =>
      cases pc <;> simp only [doStep, hpc] at hs
      case addLock =>
        split at hs
        · cases hs
        · rename_i hf
          cases hs
          exact Or.inr (Or.inl ⟨t, rfl, hpc, by simpa using hf, rfl⟩)
      case ndLock h =>
        split at hs
        · cases hs
        · rename_i hf
          cases hs
          exact Or.inr (Or.inr ⟨t, h, rfl, hpc, by simpa using hf, rfl⟩)
      case send => cases hs
      case intSend => cases hs
      case iaSend => cases hs
      case waitRecv => cases hs
      case done => cases hs
      all_goals
        left
        repeat' split at hs
        all_goals first
          | (cases hs; exact ⟨rfl, rfl, rfl, rfl⟩)
          | cases hs
  | recv t sd =>
    simp only [step] at hs
    rcases doRecv_cases s t sd s' hs with ⟨n, -, -, rfl⟩ | ⟨a, b, inter, -, -, -, rfl⟩ |
      ⟨a, b, inter, k, -, -, -, rfl⟩ | ⟨a, b, c, rest, inter, k, -, -, -, rfl⟩ <;>
    exact Or.inl ⟨rfl, rfl, rfl, rfl⟩
  | range t order =>
    simp only [step] at hs
    obtain ⟨inter, k, -, -, -, hcase⟩ := doRange_cases s t order s' hs
    rcases hcase with ⟨-, rfl⟩ | ⟨a, rest, -, rfl⟩ <;> exact Or.inl ⟨rfl, rfl, rfl, rfl⟩

theorem wrapInt_succ (x : Int) : wrapInt (wrapInt x + 1) = wrapInt (x + 1) := by
  unfold wrapInt
  omega

theorem wrapInt_small (k : Nat) (h : k < 2 ^ 63) : wrapInt (k : Int) = k := by
  unfold wrapInt
  omega

theorem idInv_step (s : State) (a : Action) (s' : State) (h : IdInv s)
    (hs : step s a = some s') : IdInv s' := by
  rcases step_frame s a s' hs with ⟨h1, -, h3, -⟩ | ⟨t, -, -, -, rfl⟩ | ⟨t, hh, -, -, -, rfl⟩
  · unfold IdInv
    rw [h1, h3]
    exact h
  · obtain ⟨htop, hids⟩ := h
    have hnew : wrapInt (s.ewg.idGen.top.id + 1) = wrapInt (s.issued.length : Int) := by
      rw [htop, wrapInt_succ]
      congr 1
      omega
    refine ⟨?_, ?_⟩
    · simp only [ErrorWaitGroup.Add, adminIdGen.next, List.length_append, List.length_singleton]
      rw [hnew]
      congr 1
      push_cast
      omega
    · intro k b hk
      simp only [ErrorWaitGroup.Add, adminIdGen.next] at hk
      rcases Nat.lt_or_ge k s.issued.length with hlt | hge
      · rw [List.getElem?_append_left hlt] at hk
        exact hids k b hk
      · rw [List.getElem?_append_right hge] at hk
        rcases Nat.eq_or_lt_of_le hge with heq | hlt
        · subst heq
          simp only [Nat.sub_self, List.getElem?_cons_zero, Option.some.injEq] at hk
          subst hk
          exact hnew
        · obtain ⟨m, hm⟩ : ∃ m, k - s.issued.length = m + 1 :=
            ⟨k - s.issued.length - 1, by omega⟩
          rw [hm] at hk
          simp at hk
  · exact h

theorem idInv_reachable (s : State) (hr : Reachable s) : IdInv s := by
  obtain ⟨acts, hacts⟩ := hr
  refine run_preserves idInv_step acts State.init s ?_ hacts
  refine ⟨by decide, ?_⟩
  intro k a hk
  simp [State.init] at hk

/-- The state after `n` consecutive `Add` calls on a fresh group. -/
theorem addSchedule_run (n : Nat) :
    ∃ s, run State.init (addSchedule n) = some s ∧ s.ewg.safe = false ∧
      s.threads.length = n ∧ s.issued.length = n ∧ s.removed = [] ∧
      ∀ p ∈ s.threads, ∃ a, p = .done (.handle a) := by
  induction n with
  | zero => exact ⟨State.init, rfl, rfl, rfl, rfl, rfl, fun p hp => by cases hp⟩
  | succ n ih =>
    obtain ⟨s, hrun, hsafe, hlen, hiss, hrem, hthr⟩ := ih
    have h1 : (s.threads ++ [Pc.addLock])[n]? = some .addLock := by
      rw [List.getElem?_append_right (by omega)]
      simp [hlen]
    refine ⟨{ s with ewg := (s.ewg.Add s.nextCh).2, nextCh := s.nextCh + 1,
                     issued := s.issued ++ [(s.ewg.Add s.nextCh).1],
                     threads := (s.threads ++ [Pc.addLock]).set n
                       (.done (.handle (s.ewg.Add s.nextCh).1)) }, ?_, ?_, ?_, ?_, hrem, ?_⟩
    · simp only [addSchedule]
      rw [run_append, hrun]
      simp [run, step, doCall, Call.handle, Call.entry, doStep, h1, hsafe]
    · simp [ErrorWaitGroup.Add, hsafe]
    · simp [hlen]
    · simp [hiss]
    · intro p hp
      rcases List.mem_or_eq_of_mem_set hp with h2 | h2
      · simp only [List.mem_append, List.mem_singleton] at h2
        rcases h2 with h3 | h3
        · exact hthr p h3
        · subst h3
          exfalso
          obtain ⟨j, hj⟩ := List.mem_iff_getElem?.mp hp
          rcases get_set_cases hj with ⟨-, h4⟩ | ⟨h4, h5⟩
          · cases h4
          · rcases get_append_cases h5 with h6 | ⟨h6, -⟩
            · obtain ⟨b, hb⟩ := hthr _ (List.mem_iff_getElem?.mpr ⟨_, h6⟩)
              cases hb
            · exact h4 (h6.trans hlen)
      · exact ⟨_, h2⟩
theorem mem_mapDelete {κ ν : Type} [DecidableEq κ] (m : List (κ × ν)) (k : κ) (e : κ × ν) :
    e ∈ mapDelete m k ↔ e ∈ m ∧ e.1 ≠ k := by
  simp [mapDelete]

theorem mem_mapSet {κ ν : Type} [DecidableEq κ] (m : List (κ × ν)) (k : κ) (v : ν)
    (e : κ × ν) : e ∈ mapSet m k v ↔ (e ∈ m ∧ e.1 ≠ k) ∨ e = (k, v) := by
  simp [mapSet, mapDelete]

theorem mem_mapKeys_mapDelete {κ ν : Type} [DecidableEq κ] (m : List (κ × ν)) (k x : κ) :
    x ∈ mapKeys (mapDelete m k) ↔ x ∈ mapKeys m ∧ x ≠ k := by
  simp only [mapKeys, List.mem_map, mem_mapDelete]
  constructor
  · rintro ⟨e, ⟨he, hne⟩, rfl⟩
    exact ⟨⟨e, he, rfl⟩, hne⟩
  · rintro ⟨⟨e, he, rfl⟩, hne⟩
    exact ⟨e, ⟨he, hne⟩, rfl⟩

theorem mem_mapKeys_mapSet {κ ν : Type} [DecidableEq κ] (m : List (κ × ν)) (k : κ) (v : ν)
    (x : κ) : x ∈ mapKeys (mapSet m k v) ↔ x = k ∨ x ∈ mapKeys m := by
  simp only [mapKeys, List.mem_map, mem_mapSet]
  constructor
  · rintro ⟨e, (⟨he, -⟩ | rfl), rfl⟩
    · exact Or.inr ⟨e, he, rfl⟩
    · exact Or.inl rfl
  · rintro (rfl | ⟨e, he, rfl⟩)
    · exact ⟨(x, v), Or.inr rfl, rfl⟩
    · by_cases h : e.1 = k
      · exact ⟨(k, v), Or.inr rfl, h.symm⟩
      · exact ⟨e, Or.inl ⟨he, h⟩, rfl⟩

theorem length_mapSet_of_not_mem {κ ν : Type} [DecidableEq κ] (m : List (κ × ν)) (k : κ)
    (v : ν) (h : k ∉ mapKeys m) : (mapSet m k v).length = m.length + 1 := by
  have hfil : mapDelete m k = m := by
    unfold mapDelete
    rw [List.filter_eq_self]
    intro e he
    simp only [decide_eq_true_eq]
    intro hk
    exact h (List.mem_map.mpr ⟨e, he, hk⟩)
  simp [mapSet, hfil]

theorem length_mapSet_of_mem {κ ν : Type} [DecidableEq κ] (m : List (κ × ν)) (k : κ)
    (v : ν) (h : k ∈ mapKeys m) : (mapSet m k v).length ≤ m.length := by
  obtain ⟨e, he, hk⟩ := List.mem_map.mp h
  have hlt : (mapDelete m k).length < m.length := by
    unfold mapDelete
    rw [List.length_filter_lt_length_iff_exists]
    exact ⟨e, he, by simp [hk]⟩
  simp only [mapSet, List.length_append, List.length_singleton]
  omega

/-- Apart from entering a call, a transition never puts a goroutine at the
`Lock()` of `NotifyDone`. -/
theorem step_ndLock (s : State) (a : Action) (s' : State) (hs : step s a = some s')
    (h : Admin) (hmem : Pc.ndLock h ∈ s'.threads) :
    Pc.ndLock h ∈ s.threads ∨ h ∈ s.issued := by
  have hset : ∀ (l : List Pc) (t : Nat) (q : Pc), q.isNdLock = false →
      Pc.ndLock h ∈ l.set t q → Pc.ndLock h ∈ l := by
    intro l t q hq hm
    rcases List.mem_or_eq_of_mem_set hm with h1 | h1
    · exact h1
    · rw [← h1] at hq; cases hq
  cases a with
  | call c =>
    obtain ⟨key, hc⟩ := doCall_cases s c s' hs
    subst key
    simp only [List.mem_append, List.mem_singleton] at hmem
    rcases hmem with h1 | h1
    · exact Or.inl h1
    · right
      cases c <;> simp [Call.entry] at h1
      subst h1
      exact hc _ rfl
  | step t =>
    left
    simp only [step] at hs
    cases hpc : s.threads[t]? with
    | none => simp [doStep, hpc] at hs
    | some pc =>
      cases pc <;> simp only [doStep, hpc] at hs
      all_goals
        repeat' split at hs
        all_goals first
          | (cases hs; dsimp only at hmem; exact hset _ _ _ (by rfl) hmem)
          | cases hs
  | recv t sd =>
    left
    simp only [step] at hs
    rcases doRecv_cases s t sd s' hs with ⟨n, -, -, rfl⟩ | ⟨a, b, inter, -, -, -, rfl⟩ |
      ⟨a, b, inter, k, -, -, -, rfl⟩ | ⟨a, b, c, rest, inter, k, -, -, -, rfl⟩ <;>
    (dsimp only at hmem; exact hset _ _ _ (by rfl) (hset _ _ _ (by rfl) hmem))
  | range t order =>
    left
    simp only [step] at hs
    obtain ⟨inter, k, -, -, -, hcase⟩ := doRange_cases s t order s' hs
    rcases hcase with ⟨-, rfl⟩ | ⟨a, rest, -, rfl⟩ <;>
    (dsimp only at hmem; exact hset _ _ _ (by rfl) hmem)

theorem regInv_step (s : State) (a : Action) (s' : State) (h : RegInv s)
    (hs : step s a = some s') : RegInv s' := by
  obtain ⟨i1, i2, i3, i4, i5⟩ := h
  have hnd := step_ndLock s a s' hs
  rcases step_frame s a s' hs with ⟨-, f2, f3, f4⟩ | ⟨t, -, -, -, rfl⟩ | ⟨t, hh, -, hpc, -, rfl⟩
  · refine ⟨?_, ?_, ?_, ?_, ?_⟩
    · intro x hx
      rw [f3]
      rcases hnd x hx with h1 | h1
      · exact i1 x h1
      · exact h1
    · rw [f3, f4]; exact i2
    · rw [f2, f3]; exact i3
    · rw [f2, f3, f4]; exact i4
    · rw [f2, f3, f4]; exact i5
  · -- the critical section of `Add`
    simp only [ErrorWaitGroup.Add, adminIdGen.next] at hnd ⊢
    refine ⟨?_, ?_, ?_, ?_, ?_⟩
    · intro x hx
      rcases hnd x hx with h1 | h1
      · exact List.mem_append_left _ (i1 x h1)
      · exact List.mem_append_left _ h1
    · intro id hid
      simp only [List.map_append, List.mem_append]
      exact Or.inl (i2 id hid)
    · intro e he
      rcases (mem_mapSet _ _ _ e).mp he with ⟨h1, -⟩ | rfl
      · exact ⟨List.mem_append_left _ (i3 e h1).1, (i3 e h1).2⟩
      · exact ⟨List.mem_append_right _ (List.mem_singleton.mpr rfl), rfl⟩
    · intro hrem x hx
      rw [mem_mapKeys_mapSet]
      rcases List.mem_append.mp hx with h1 | h1
      · exact Or.inr (i4 hrem x h1)
      · rw [List.mem_singleton.mp h1]; exact Or.inl rfl
    · intro hnodup id
      simp only [List.map_append, List.map_cons, List.map_nil] at hnodup ⊢
      have hnd1 : (s.issued.map Admin.id).Nodup := (List.nodup_append.mp hnodup).1
      have hfresh : (⟨wrapInt (s.ewg.idGen.top.id + 1)⟩ : AdminId) ∉ s.issued.map Admin.id := by
        intro hin
        exact (List.nodup_append.mp hnodup).2.2 hin (List.mem_singleton.mpr rfl)
      rw [mem_mapKeys_mapSet, i5 hnd1, List.mem_append, List.mem_singleton]
      constructor
      · rintro (rfl | ⟨h1, h2⟩)
        · exact ⟨Or.inr rfl, fun hr => hfresh (i2 _ hr)⟩
        · exact ⟨Or.inl h1, h2⟩
      · rintro ⟨h1 | h1, h2⟩
        · exact Or.inr ⟨h1, h2⟩
        · exact Or.inl h1
  · -- the critical section of `NotifyDone`
    have hiss : hh ∈ s.issued := i1 hh (List.mem_iff_getElem?.mpr ⟨_, hpc⟩)
    simp only [ErrorWaitGroup.deleteAdmin] at hnd ⊢
    refine ⟨?_, ?_, ?_, ?_, ?_⟩
    · intro x hx
      rcases hnd x hx with h1 | h1
      · exact i1 x h1
      · exact h1
    · intro id hid
      rcases List.mem_append.mp hid with h1 | h1
      · exact i2 id h1
      · rw [List.mem_singleton.mp h1]
        exact List.mem_map.mpr ⟨hh, hiss, rfl⟩
    · intro e he
      exact i3 e ((mem_mapDelete _ _ e).mp he).1
    · intro hrem
      simp at hrem
    · intro hnodup id
      rw [mem_mapKeys_mapDelete, i5 hnodup, List.mem_append, List.mem_singleton]
      constructor
      · rintro ⟨⟨h1, h2⟩, h3⟩
        exact ⟨h1, fun hc => hc.elim h2 h3⟩
      · rintro ⟨h1, h2⟩
        exact ⟨⟨h1, fun hc => h2 (Or.inl hc)⟩, fun hc => h2 (Or.inr hc)⟩

theorem regInv_reachable (s : State) (hr : Reachable s) : RegInv s := by
  obtain ⟨acts, hacts⟩ := hr
  refine run_preserves regInv_step acts State.init s ?_ hacts
  refine ⟨?_, ?_, ?_, ?_, ?_⟩ <;> simp [State.init, New, mapKeys]

/-- One call of `Add` that runs to its end at once. -/
theorem add_once (s : State) (n : Nat) (hsafe : s.ewg.safe = false)
    (hlen : s.threads.length = n) :
    run s [.call .Add, .step n] =
      some { s with ewg := (s.ewg.Add s.nextCh).2, nextCh := s.nextCh + 1,
                    issued := s.issued ++ [(s.ewg.Add s.nextCh).1],
                    threads := (s.threads ++ [Pc.addLock]).set n
                      (.done (.handle (s.ewg.Add s.nextCh).1)) } := by
  have h1 : (s.threads ++ [Pc.addLock])[n]? = some .addLock := by
    rw [List.getElem?_append_right (by omega)]
    simp [hlen]
  simp [run, step, doCall, Call.handle, Call.entry, doStep, h1, hsafe]
theorem run_preserves_on {P : State → Prop} {A : Action → Prop}
    (hstep : ∀ s a s', P s → A a → step s a = some s' → P s') :
    ∀ (acts : List Action) (s s' : State), P s → (∀ a ∈ acts, A a) →
      run s acts = some s' → P s' := by
  intro acts
  induction acts with
  | nil => intro s s' hP _ h; simp [run] at h; exact h ▸ hP
  | cons a as ih =>
    intro s s' hP hA h
    simp only [run] at h
    cases h1 : step s a with
    | none => simp [h1] at h
    | some s1 =>
      simp [h1] at h
      exact ih s1 s' (hstep s a s1 hP (hA a (List.mem_cons_self _ _)) h1)
        (fun x hx => hA x (List.mem_cons_of_mem _ hx)) h

theorem doneOnly_set {l : List Pc} {t : Nat} {q : Pc} (h : ∀ p ∈ l, p.doneOnly)
    (hq : q.doneOnly) : ∀ p ∈ l.set t q, p.doneOnly := by
  intro p hp
  rcases List.mem_or_eq_of_mem_set hp with h1 | h1
  · exact h p h1
  · subst h1; exact hq

theorem doneOnly_step (s : State) (a : Action) (s' : State)
    (h : ∀ p ∈ s.threads, p.doneOnly) (ha : a.doneOnly) (hs : step s a = some s') :
    ∀ p ∈ s'.threads, p.doneOnly := by
  cases a with
  | call c =>
    obtain ⟨key, -⟩ := doCall_cases s c s' hs
    subst key
    intro p hp
    simp only [List.mem_append, List.mem_singleton] at hp
    rcases hp with hp | hp
    · exact h p hp
    · subst hp
      cases c <;> simp_all [Call.entry, Pc.doneOnly, Action.doneOnly, Call.doneOnly]
  | step t =>
    simp only [step] at hs
    cases hpc : s.threads[t]? with
    | none => simp [doStep, hpc] at hs
    | some pc =>
      have hin : pc.doneOnly := h _ (List.mem_iff_getElem?.mpr ⟨_, hpc⟩)
      cases pc <;> simp only [doStep, hpc] at hs
      case iaLock => cases hs
      case waitLock n =>
        simp only [Pc.doneOnly] at hin
        have hne : ¬ (n.code ≠ NotifCode_Done) := fun hc => hc hin
        split at hs
        · cases hs
        · split at hs
          · cases hs; exact doneOnly_set h (by simp [Pc.doneOnly])
          · cases hs; exact doneOnly_set h (by simp [Pc.doneOnly])
      all_goals
        repeat' split at hs
        all_goals first
          | (cases hs; exact doneOnly_set h (by simp [Pc.doneOnly, NotifCode_Done]))
          | cases hs
  | recv t sd =>
    simp only [step] at hs
    rcases doRecv_cases s t sd s' hs with ⟨n, -, hsd, rfl⟩ | ⟨a, b, inter, -, -, -, rfl⟩ |
      ⟨a, b, inter, k, -, hsd, -, rfl⟩ | ⟨a, b, c, rest, inter, k, -, hsd, -, rfl⟩
    · have hn : (Pc.send n).doneOnly := h _ (List.mem_iff_getElem?.mpr ⟨_, hsd⟩)
      exact doneOnly_set (doneOnly_set h hn) (by simp [Pc.doneOnly])
    · exact doneOnly_set (doneOnly_set h (by simp [Pc.doneOnly])) (by simp [Pc.doneOnly])
    · have hk : k = none := h _ (List.mem_iff_getElem?.mpr ⟨_, hsd⟩)
      subst hk
      exact doneOnly_set (doneOnly_set h (by simp [Pc.doneOnly])) (by simp [Pc.doneOnly, iaRet])
    · have hk : k = none := h _ (List.mem_iff_getElem?.mpr ⟨_, hsd⟩)
      subst hk
      exact doneOnly_set (doneOnly_set h (by simp [Pc.doneOnly])) (by simp [Pc.doneOnly])
  | range t order =>
    simp only [step] at hs
    obtain ⟨inter, k, hpc, -, -, hcase⟩ := doRange_cases s t order s' hs
    have hk : k = none := h _ (List.mem_iff_getElem?.mpr ⟨_, hpc⟩)
    subst hk
    rcases hcase with ⟨-, rfl⟩ | ⟨a, rest, -, rfl⟩
    · exact doneOnly_set h (by simp [Pc.doneOnly, iaRet])
    · exact doneOnly_set h (by simp [Pc.doneOnly])

/-- When only Done reports have been seen, a transition in which a `Wait`
returns finds the registry empty. -/
theorem wait_return_step (s : State) (a : Action) (s' : State)
    (h : ∀ p ∈ s.threads, p.doneOnly) (hs : step s a = some s') (t : Nat) (n : Notif)
    (b : Bool) (hnew : s'.threads[t]? = some (.done (.wait n b)))
    (hold : s.threads[t]? ≠ some (.done (.wait n b))) :
    s'.ewg.admins = [] := by
  cases a with
  | call c =>
    obtain ⟨key, -⟩ := doCall_cases s c s' hs
    subst key
    exfalso
    rcases get_append_cases hnew with h1 | ⟨-, h1⟩
    · exact hold h1
    · cases c <;> simp [Call.entry] at h1
  | step u =>
    simp only [step] at hs
    cases hpc : s.threads[u]? with
    | none => simp [doStep, hpc] at hs
    | some pc =>
      have hin : pc.doneOnly := h _ (List.mem_iff_getElem?.mpr ⟨_, hpc⟩)
      have key : ∀ (q : Pc) (g : ErrorWaitGroup) (x : Nat) (y : List Admin) (z : List AdminId),
          s' = ⟨g, s.threads.set u q, x, y, z⟩ → q = .done (.wait n b) := by
        intro q g x y z e
        subst e
        rcases get_set_cases hnew with ⟨-, h1⟩ | ⟨-, h1⟩
        · exact h1.symm
        · exact absurd h1 hold
      cases pc <;> simp only [doStep, hpc] at hs
      case waitStart =>
        split at hs
        · rename_i hlen
          cases hs
          exact List.length_eq_zero.mp hlen
        · cases hs
          have := key _ _ _ _ _ rfl
          cases this
      case waitLock m =>
        simp only [Pc.doneOnly] at hin
        have hne : ¬ (m.code ≠ NotifCode_Done) := fun hc => hc hin
        split at hs
        · cases hs
        · split at hs
          · rename_i hlen
            cases hs
            exact List.length_eq_zero.mp hlen
          · cases hs
            have := key _ _ _ _ _ rfl
            cases this
      case iaLock => cases hs
      all_goals
        repeat' split at hs
        all_goals first
          | (exfalso; cases hs; have := key _ _ _ _ _ rfl; cases this)
          | cases hs
  | recv u sd =>
    exfalso
    simp only [step] at hs
    have key : ∀ (q1 q2 : Pc), ((s.threads.set u q1).set sd q2)[t]? = some (.done (.wait n b)) →
        q1 = .done (.wait n b) ∨ q2 = .done (.wait n b) := by
      intro q1 q2 e
      rcases get_set_cases e with ⟨-, h1⟩ | ⟨-, h1⟩
      · exact Or.inr h1.symm
      · rcases get_set_cases h1 with ⟨-, h2⟩ | ⟨-, h2⟩
        · exact Or.inl h2.symm
        · exact absurd h2 hold
    rcases doRecv_cases s u sd s' hs with ⟨m, -, hsd, rfl⟩ | ⟨a, b', inter, -, -, -, rfl⟩ |
      ⟨a, b', inter, k, -, hsd, -, rfl⟩ | ⟨a, b', c, rest, inter, k, -, hsd, -, rfl⟩
    · rcases key _ _ hnew with h1 | h1 <;> cases h1
    · rcases key _ _ hnew with h1 | h1 <;> cases h1
    · have hk : k = none := h _ (List.mem_iff_getElem?.mpr ⟨_, hsd⟩)
      subst hk
      rcases key _ _ hnew with h1 | h1 <;> cases h1
    · rcases key _ _ hnew with h1 | h1 <;> cases h1
  | range u order =>
    exfalso
    simp only [step] at hs
    obtain ⟨inter, k, hpc, -, -, hcase⟩ := doRange_cases s u order s' hs
    have hk : k = none := h _ (List.mem_iff_getElem?.mpr ⟨_, hpc⟩)
    subst hk
    rcases hcase with ⟨-, rfl⟩ | ⟨a, rest, -, rfl⟩
    all_goals
      rcases get_set_cases hnew with ⟨-, h1⟩ | ⟨-, h1⟩
      · cases h1
      · exact hold h1
theorem weight_set (l : List Pc) (t : Nat) (p q : Pc) (h : l[t]? = some p) :
    ((l.set t q).map Pc.weight).sum + p.weight = (l.map Pc.weight).sum + q.weight := by
  induction l generalizing t with
  | nil => simp at h
  | cons x xs ih =>
    cases t with
    | zero =>
      simp only [List.getElem?_cons_zero, Option.some.injEq] at h
      subst h
      simp only [List.set_cons_zero, List.map_cons, List.sum_cons]
      omega
    | succ t =>
      simp only [List.getElem?_cons_succ] at h
      have := ih t h
      simp only [List.set_cons_succ, List.map_cons, List.sum_cons]
      omega

/-- A call that has returned stays returned. -/
theorem done_step (s : State) (a : Action) (s' : State) (hs : step s a = some s') (t : Nat)
    (r : Ret) (h : s.threads[t]? = some (.done r)) : s'.threads[t]? = some (.done r) := by
  cases a with
  | call c =>
    obtain ⟨key, -⟩ := doCall_cases s c s' hs
    subst key
    simp only
    rw [List.getElem?_append_left (get_lt h)]; exact h
  | step u =>
    have hne : u ≠ t := by
      rintro rfl
      simp [step, doStep, h] at hs
    simp only [step] at hs
    cases hpc : s.threads[u]? with
    | none => simp [doStep, hpc] at hs
    | some pc =>
      cases pc <;> simp only [doStep, hpc] at hs
      all_goals
        repeat' split at hs
        all_goals first
          | (cases hs; dsimp only; rw [List.getElem?_set_ne hne]; exact h)
          | cases hs
  | recv u sd =>
    simp only [step] at hs
    have hu : ∀ (q : Pc), s.threads[u]? = some q → (∀ r', q ≠ .done r') → u ≠ t := by
      intro q hq hqn e
      subst e
      rw [h] at hq
      cases hq
      exact hqn r rfl
    rcases doRecv_cases s u sd s' hs with ⟨n, h1, h2, rfl⟩ | ⟨a, b, inter, h1, h2, -, rfl⟩ |
      ⟨a, b, inter, k, h1, h2, -, rfl⟩ | ⟨a, b, c, rest, inter, k, h1, h2, -, rfl⟩
    all_goals
      have e1 := hu _ h1 (by intro r' e; cases e)
      have e2 : sd ≠ t := by
        rintro rfl
        rw [h] at h2
        cases h2
      dsimp only
      rw [List.getElem?_set_ne e2, List.getElem?_set_ne e1]
      exact h
  | range u order =>
    simp only [step] at hs
    obtain ⟨inter, k, hpc, -, -, hcase⟩ := doRange_cases s u order s' hs
    have hne : u ≠ t := by
      rintro rfl
      rw [h] at hpc; cases hpc
    rcases hcase with ⟨-, rfl⟩ | ⟨a, rest, -, rfl⟩ <;>
    (dsimp only; rw [List.getElem?_set_ne hne]; exact h)

theorem returned_run (acts : List Action) (s s' : State) (w : Nat) (h : Returned s w)
    (hr : run s acts = some s') : Returned s' w :=
  run_preserves (P := fun x => Returned x w) (fun x a y hx hs => done_step x a y hs w _ hx)
    acts s s' h hr
theorem weight_set_lt (l : List Pc) (t : Nat) (p q : Pc) (h : l[t]? = some p)
    (hw : q.weight < p.weight) : ((l.set t q).map Pc.weight).sum < (l.map Pc.weight).sum := by
  have := weight_set l t p q h
  omega

/-- `Wait` goes (back) to its receive while the registry is not empty. -/
theorem draining_to_waitRecv (s : State) (w : Nat) (hD : Draining s w)
    (hne : s.ewg.admins ≠ []) :
    Draining { s with threads := s.threads.set w .waitRecv } w := by
  obtain ⟨d1, ⟨p0, hp, hin⟩, d3, d4, -⟩ := hD
  have hnd : ∀ (t : Nat) (a : Admin), s.threads[t]? = some (.ndLock a) → w ≠ t := by
    rintro t a ht rfl
    rw [hp] at ht; cases ht; exact hin
  have hreg : ∀ e ∈ s.ewg.admins, ∃ (t : Nat) (a : Admin),
      (s.threads.set w Pc.waitRecv)[t]? = some (.ndLock a) ∧ a.id = e.1 := by
    intro e he
    obtain ⟨t, a, ht, ha⟩ := d4 e he
    exact ⟨t, a, by rw [List.getElem?_set_ne (hnd t a ht)]; exact ht, ha⟩
  refine ⟨d1, ⟨_, getElem?_set_self_of_some hp, trivial⟩, ?_, hreg, ?_⟩
  · intro t p ht htw
    rw [List.getElem?_set_ne (Ne.symm htw)] at ht
    exact d3 t p ht htw
  · intro _
    obtain ⟨e, he⟩ := List.exists_mem_of_ne_nil _ hne
    obtain ⟨t, a, ht, -⟩ := hreg e he
    exact ⟨t, _, ht, trivial⟩

/-- In a draining group every transition of the goroutines themselves either
lets `Wait` return `(Notif{}, true)` or leaves the group draining, and it
lowers the weight. -/
theorem draining_step (s : State) (w : Nat) (a : Action) (s' : State) (hD : Draining s w)
    (ha : a.internal) (hs : step s a = some s') :
    (Returned s' w ∨ Draining s' w) ∧ s'.weight < s.weight := by
  have hD0 := hD
  obtain ⟨d1, ⟨p0, hp, hin⟩, d3, d4, d5⟩ := hD
  cases a with
  | call c => exact absurd ha (by simp [Action.internal])
  | step u =>
    simp only [step] at hs
    cases hpc : s.threads[u]? with
    | none => simp [doStep, hpc] at hs
    | some pc =>
      by_cases huw : u = w
      · subst huw
        rw [hp] at hpc
        cases hpc
        cases p0 <;> try exact False.elim hin
        · -- `waitStart`
          simp only [doStep, hp] at hs
          split at hs
          · cases hs
            exact ⟨Or.inl (getElem?_set_self_of_some hp), weight_set_lt _ _ _ _ hp (by simp [Pc.weight])⟩
          · rename_i hlen
            cases hs
            refine ⟨Or.inr (draining_to_waitRecv s u hD0 ?_), weight_set_lt _ _ _ _ hp (by simp [Pc.weight])⟩
            intro e; exact hlen (by simp [e])
        · -- `waitRecv`
          simp only [doStep, hp] at hs
          cases hs
        · -- `waitLock`
          simp only [Pc.inWait] at hin
          simp only [doStep, hp, d1, Bool.false_eq_true, if_false, hin, ne_eq,
            not_true_eq_false] at hs
          split at hs
          · cases hs
            exact ⟨Or.inl (getElem?_set_self_of_some hp), weight_set_lt _ _ _ _ hp (by simp [Pc.weight])⟩
          · rename_i hlen
            cases hs
            refine ⟨Or.inr (draining_to_waitRecv s u hD0 ?_), weight_set_lt _ _ _ _ hp (by simp [Pc.weight])⟩
            intro e; exact hlen (by simp [e])
      · have hwk := d3 u pc hpc huw
        cases pc <;> try exact False.elim hwk
        · -- `ndLock`
          rename_i h
          simp only [doStep, hpc, d1, Bool.false_eq_true, if_false] at hs
          cases hs
          refine ⟨Or.inr ⟨d1, ⟨p0, ?_, hin⟩, ?_, ?_, ?_⟩, weight_set_lt _ _ _ _ hpc (by simp [Pc.weight])⟩
          · dsimp only
            rw [List.getElem?_set_ne huw]; exact hp
          · intro t p ht htw
            rcases get_set_cases ht with ⟨-, rfl⟩ | ⟨-, h1⟩
            · rfl
            · exact d3 t p h1 htw
          · intro e he
            simp only [ErrorWaitGroup.deleteAdmin] at he
            obtain ⟨he1, he2⟩ := (mem_mapDelete _ _ e).mp he
            obtain ⟨t, b, ht, hb⟩ := d4 e he1
            have hne : u ≠ t := by
              rintro rfl
              rw [hpc] at ht; cases ht
              exact he2 hb.symm
            exact ⟨t, b, by dsimp only; rw [List.getElem?_set_ne hne]; exact ht, hb⟩
          · intro _
            exact ⟨u, _, getElem?_set_self_of_some hpc, trivial⟩
        · -- `send`
          simp only [doStep, hpc] at hs
          cases hs
        · -- `done`
          simp only [doStep, hpc] at hs
          cases hs
  | recv u sd =>
    simp only [step] at hs
    have hpoll : ∀ (b : Admin), s.threads[u]? ≠ some (.poll b) := by
      intro b hb
      by_cases huw : u = w
      · subst huw
        rw [hp] at hb; cases hb; exact hin
      · exact d3 u _ hb huw
    rcases doRecv_cases s u sd s' hs with ⟨n, h1, h2, rfl⟩ | ⟨a, b, inter, h1, -, -, -⟩ |
      ⟨a, b, inter, k, h1, -, -, -⟩ | ⟨a, b, c, rest, inter, k, h1, -, -, -⟩
    · have huw : u = w := by
        by_contra hc
        exact d3 u _ h1 hc
      subst huw
      have hsd : sd ≠ u := by
        rintro rfl
        rw [h1] at h2; cases h2
      have hcode : n.code = NotifCode_Done := d3 sd _ h2 hsd
      have h2' : (s.threads.set u (.waitLock n))[sd]? = some (.send n) := by
        rw [List.getElem?_set_ne (Ne.symm hsd)]; exact h2
      refine ⟨Or.inr ⟨d1, ⟨.waitLock n, ?_, hcode⟩, ?_, ?_, ?_⟩, ?_⟩
      · exact get_set_set_first h1 hsd
      · intro t p ht htw
        rcases get_set_cases ht with ⟨-, rfl⟩ | ⟨-, g1⟩
        · trivial
        · rcases get_set_cases g1 with ⟨e, -⟩ | ⟨-, g2⟩
          · exact absurd e htw
          · exact d3 t p g2 htw
      · intro e he
        obtain ⟨t, b, ht, hb⟩ := d4 e he
        have n1 : u ≠ t := by
          rintro rfl
          rw [h1] at ht; cases ht
        have n2 : sd ≠ t := by
          rintro rfl
          rw [h2] at ht; cases ht
        exact ⟨t, b, by
          dsimp only
          rw [List.getElem?_set_ne n2, List.getElem?_set_ne n1]; exact ht, hb⟩
      · intro hc
        have : ((s.threads.set u (Pc.waitLock n)).set sd (Pc.done .unit))[u]? =
            some (Pc.waitLock n) := get_set_set_first h1 hsd
        dsimp only at hc
        rw [this] at hc
        cases hc
      · have e1 := weight_set s.threads u _ (.waitLock n) h1
        have e2 := weight_set (s.threads.set u (.waitLock n)) sd _ (.done .unit) h2'
        simp only [Pc.weight] at e1 e2
        simp only [State.weight]
        omega
    · exact absurd h1 (hpoll a)
    · exact absurd h1 (hpoll a)
    · exact absurd h1 (hpoll a)
  | range u order =>
    exfalso
    simp only [step] at hs
    obtain ⟨inter, k, hpc, -, -, -⟩ := doRange_cases s u order s' hs
    by_cases huw : u = w
    · subst huw
      rw [hp] at hpc; cases hpc; exact hin
    · exact d3 u _ hpc huw

/-- A draining group is never stuck. -/
theorem draining_enabled (s : State) (w : Nat) (hD : Draining s w) :
    ∃ (a : Action), a.internal ∧ (step s a).isSome = true := by
  obtain ⟨d1, ⟨p0, hp, hin⟩, d3, d4, d5⟩ := hD
  cases p0 <;> try exact False.elim hin
  · -- `waitStart`
    by_cases hlen : s.ewg.admins.length = 0
    · refine ⟨.step w, trivial, ?_⟩
      simp [step, doStep, hp, hlen]
    · refine ⟨.step w, trivial, ?_⟩
      simp [step, doStep, hp, hlen]
  · -- `waitRecv`
    obtain ⟨t, p, ht, hpd⟩ := d5 hp
    cases p <;> try exact False.elim hpd
    · refine ⟨.step t, trivial, ?_⟩
      simp [step, doStep, ht, d1]
    · refine ⟨.recv w t, trivial, ?_⟩
      simp [step, doRecv, hp, ht]
  · -- `waitLock`
    simp only [Pc.inWait] at hin
    by_cases hlen : s.ewg.admins.length = 0
    · refine ⟨.step w, trivial, ?_⟩
      simp [step, doStep, hp, d1, hin, hlen]
    · refine ⟨.step w, trivial, ?_⟩
      simp [step, doStep, hp, d1, hin, hlen]
theorem draining_run (acts : List Action) (s s' : State) (w : Nat) (hD : Draining s w)
    (hint : ∀ a ∈ acts, a.internal) (hr : run s acts = some s') :
    Returned s' w ∨ (Draining s' w ∧ acts.length + s'.weight ≤ s.weight) := by
  induction acts generalizing s with
  | nil =>
    simp only [run, Option.some.injEq] at hr
    subst hr
    exact Or.inr ⟨hD, by simp⟩
  | cons a as ih =>
    simp only [run] at hr
    cases h1 : step s a with
    | none => simp [h1] at hr
    | some s1 =>
      simp only [h1, Option.some_bind] at hr
      obtain ⟨hcase, hlt⟩ := draining_step s w a s1 hD (hint a (List.mem_cons_self _ _)) h1
      rcases hcase with hret | hD1
      · exact Or.inl (returned_run as s1 s' w hret hr)
      · rcases ih s1 hD1 (fun x hx => hint x (List.mem_cons_of_mem _ hx)) hr with h2 | ⟨h2, h3⟩
        · exact Or.inl h2
        · refine Or.inr ⟨h2, ?_⟩
          simp only [List.length_cons]
          omega

theorem run_notifyDone_calls (l : List Admin) (s : State) (hl : ∀ a ∈ l, a ∈ s.issued) :
    run s (l.map (fun a => Action.call (.NotifyDone a))) =
      some { s with threads := s.threads ++ l.map Pc.ndLock } := by
  induction l generalizing s with
  | nil => simp [run]
  | cons a l ih =>
    have ha : a ∈ s.issued := hl a (List.mem_cons_self _ _)
    have hstep : step s (.call (.NotifyDone a)) =
        some { s with threads := s.threads ++ [Pc.ndLock a] } := by
      simp [step, doCall, Call.handle, Call.entry, ha]
    simp only [List.map_cons, run, hstep, Option.some_bind]
    rw [ih { s with threads := s.threads ++ [Pc.ndLock a] }
      (fun x hx => hl x (List.mem_cons_of_mem _ hx))]
    simp

/-- For every `N` the situation of the claim is reachable: `N` workers added,
`Wait` called, and every worker has called `NotifyDone`. -/
theorem draining_reachable (N : Nat) :
    ∃ s, Reachable s ∧ s.issued.length = N ∧ Draining s N := by
  obtain ⟨s0, hrun, hsafe, hlen, hiss, -, hthr⟩ := addSchedule_run N
  have hreg := regInv_reachable s0 ⟨_, hrun⟩
  have h1 : run s0 [.call .Wait] = some { s0 with threads := s0.threads ++ [Pc.waitStart] } := by
    simp [run, step, doCall, Call.handle, Call.entry]
  have h2 := run_notifyDone_calls s0.issued
    { s0 with threads := s0.threads ++ [Pc.waitStart] } (fun a ha => ha)
  have hreach : run State.init (drainingSchedule N s0.issued) =
      some { s0 with threads := s0.threads ++ [Pc.waitStart] ++ s0.issued.map Pc.ndLock } := by
    simp only [drainingSchedule]
    rw [run_append, run_append, hrun]
    simp only [Option.some_bind, h1, h2]
  have hw : (s0.threads ++ [Pc.waitStart] ++ s0.issued.map Pc.ndLock)[N]? =
      some Pc.waitStart := by
    rw [List.append_assoc, List.getElem?_append_right (by omega)]
    simp [hlen]
  have hother : ∀ (t : Nat) (p : Pc),
      (s0.threads ++ [Pc.waitStart] ++ s0.issued.map Pc.ndLock)[t]? = some p → t ≠ N →
      p.isWorker := by
    intro t p ht htN
    have hmem : p ∈ s0.threads ++ [Pc.waitStart] ++ s0.issued.map Pc.ndLock :=
      List.mem_iff_getElem?.mpr ⟨_, ht⟩
    rcases Nat.lt_or_ge t s0.threads.length with hlt | hge
    · rw [List.append_assoc, List.getElem?_append_left hlt] at ht
      obtain ⟨a, rfl⟩ := hthr p (List.mem_iff_getElem?.mpr ⟨_, ht⟩)
      trivial
    · rw [List.append_assoc, List.getElem?_append_right hge] at ht
      obtain ⟨m, hm⟩ : ∃ m, t - s0.threads.length = m + 1 :=
        ⟨t - s0.threads.length - 1, by omega⟩
      rw [hm] at ht
      simp only [List.singleton_append, List.getElem?_cons_succ] at ht
      have hin : p ∈ s0.issued.map Pc.ndLock := List.mem_iff_getElem?.mpr ⟨_, ht⟩
      obtain ⟨a, -, rfl⟩ := List.mem_map.mp hin
      trivial
  refine ⟨_, ⟨_, hreach⟩, hiss, hsafe, ⟨_, hw, trivial⟩, hother, ?_, ?_⟩
  · intro e he
    obtain ⟨h3, h4⟩ := hreg.2.2.1 e he
    have hin : Pc.ndLock e.2 ∈ s0.threads ++ [Pc.waitStart] ++ s0.issued.map Pc.ndLock :=
      List.mem_append_right _ (List.mem_map.mpr ⟨e.2, h3, rfl⟩)
    obtain ⟨t, ht⟩ := List.mem_iff_getElem?.mp hin
    exact ⟨t, e.2, ht, h4⟩
  · intro hc
    dsimp only at hc
    rw [hw] at hc
    cases hc

/-! ## The claims -/

/-- C1, at the failing input: one worker, `SetAutoInterrupt(NotifCode_Error,
InterruptCode_Stop)`, and the worker reports an error.  `Wait` receives the
report, locks the mutex at line 159, leaves the loop without unlocking and
calls `InterruptAll`, whose `Lock()` (line 180) it can never pass: under every
further schedule `Wait` still stands there, so it never returns the report.
For comparison, the second part: when the policy table has no entry for the
code of the report, `Wait` does return exactly that report with `false`. -/
theorem C1_wait_never_returns_with_auto_interrupt :
    (run State.init autoSchedule = some autoEnd ∧
      ∀ (acts : List Action) (s' : State), run autoEnd acts = some s' →
        s'.threads[2]? =
          some (.iaLock stop (some (⟨⟨0⟩, NotifCode_Error, none, some 7⟩, false)))) ∧
    (∀ (s : State) (t : Nat) (n : Notif), s.threads[t]? = some (.waitLock n) →
      s.ewg.safe = false → n.code ≠ NotifCode_Done →
      mapGet s.ewg.autoInterrupts n.code = none →
      step s (.step t) =
        some { s with ewg := { s.ewg with safe := true },
                      threads := s.threads.set t (.done (.wait n false)) }) := by
  refine ⟨⟨by decide, ?_⟩, ?_⟩
  · intro acts s' hr
    have hstuck : Stuck autoEnd := ⟨rfl, by decide⟩
    exact (stuck_run acts autoEnd s' hstuck hr).2.2.1 2 _ rfl rfl
  · intro s t n hpc hfree hcode hpol
    simp [step, doStep, hpc, hfree, hcode, hpol]

/-- C2, counterexample.  First, two workers that both call `NotifyDone`: once
both have deleted themselves from the registry, `Wait` returns `(Notif{},
true)` on the first Done report it receives; the second worker's report has
not been received (its goroutine is still blocked in the send).  Second, one
worker that calls `NotifyDone` before `Wait` is called: `Wait` returns at once
without receiving any report.  Third, an `Interrupt` blocked on a worker that
calls `NotifyDone` instead of polling: every worker has called `NotifyDone`
and no Error or custom report is sent, yet `Wait` stays at its `Lock()` and
the worker at the `Lock()` of `NotifyDone` under every schedule in which the
interrupt is not polled. -/
theorem C2_counterexample :
    (run State.init twoDoneSchedule = some twoDoneEnd ∧
      twoDoneEnd.threads[2]? = some (.done (.wait Notif.zero true)) ∧
      twoDoneEnd.threads[4]? = some (.send ⟨⟨1⟩, NotifCode_Done, none, none⟩)) ∧
    (run State.init lateWaitSchedule = some lateWaitEnd ∧
      lateWaitEnd.threads[2]? = some (.done (.wait Notif.zero true)) ∧
      lateWaitEnd.threads[1]? = some (.send ⟨⟨0⟩, NotifCode_Done, none, none⟩)) ∧
    (run State.init interferedSchedule = some interferedEnd ∧
      ∀ (acts : List Action) (s' : State), (∀ r, Action.recv r 4 ∉ acts) →
        run interferedEnd acts = some s' →
        s'.threads[2]? = some (.waitLock ⟨⟨1⟩, NotifCode_Done, none, none⟩) ∧
        s'.threads[5]? = some (.ndLock h0)) := by
  refine ⟨⟨by decide, rfl, rfl⟩, ⟨by decide, rfl, rfl⟩, by decide, ?_⟩
  intro acts s' hna hr
  have hreach : Reachable interferedEnd := ⟨interferedSchedule, by decide⟩
  obtain ⟨-, -, k3, -⟩ := blocked_run acts interferedEnd (sendersOk_reachable _ hreach) 4
    (.intSend h0 stop) rfl (by simp [Pc.offer]) s' hr hna
  exact ⟨k3 2 _ rfl rfl, k3 5 _ rfl rfl⟩

/-- C2, amended.  (1) On a group on which no Error or custom report is ever
sent, whatever else is called and under every interleaving, a `Wait` that
returns returns `(Notif{}, true)`, and at that moment the registry is empty:
every worker added so far has deleted itself in `NotifyDone` (ids pairwise
distinct).  (2) When the mutex is free, `Wait` is the only call besides the
workers' `NotifyDone` calls and every worker in the registry has called
`NotifyDone` (`Draining`), then under every interleaving of the workers'
deletions and sends with `Wait`, either `Wait` has returned `(Notif{}, true)`,
or fewer transitions have been made than the weight of the starting state and
a further transition is enabled: `Wait` returns after at most that many
transitions.  (3) Such a state is reachable for every number `N` of workers.
`Wait` is not claimed to have received the Done reports of all workers. -/
theorem C2_wait_returns_when_registry_is_drained :
    (∀ (acts : List Action) (s : State) (a : Action) (s' : State) (t : Nat) (n : Notif)
      (b : Bool), (∀ x ∈ acts, x.doneOnly) → a.doneOnly → run State.init acts = some s →
      step s a = some s' → s'.threads[t]? = some (.done (.wait n b)) →
      s.threads[t]? ≠ some (.done (.wait n b)) →
      n = Notif.zero ∧ b = true ∧ s'.ewg.admins = [] ∧
        ((s'.issued.map Admin.id).Nodup → ∀ h ∈ s'.issued, h.id ∈ s'.removed)) ∧
    (∀ (s : State) (w : Nat) (acts : List Action) (s' : State), Draining s w →
      (∀ a ∈ acts, a.internal) → run s acts = some s' →
      Returned s' w ∨
        (acts.length + s'.weight ≤ s.weight ∧ ∃ a, a.internal ∧ (step s' a).isSome = true)) ∧
    (∀ (N : Nat), ∃ s, Reachable s ∧ s.issued.length = N ∧ Draining s N) := by
  refine ⟨?_, ?_, draining_reachable⟩
  · intro acts s a s' t n b hacts ha hrun hs hnew hold
    have hinv : ∀ p ∈ s.threads, p.doneOnly :=
      run_preserves_on (P := fun x => ∀ p ∈ x.threads, p.doneOnly) doneOnly_step acts
        State.init s (fun p hp => by cases hp) hacts hrun
    have hinv' := doneOnly_step s a s' hinv ha hs
    have hnb : n = Notif.zero ∧ b = true := hinv' _ (List.mem_iff_getElem?.mpr ⟨_, hnew⟩)
    have hempty := wait_return_step s a s' hinv hs t n b hnew hold
    refine ⟨hnb.1, hnb.2, hempty, ?_⟩
    intro hnodup h hh
    have hreg := regInv_reachable s' (reachable_step s a s' ⟨acts, hrun⟩ hs)
    by_contra hc
    have hkey := (hreg.2.2.2.2 hnodup h.id).mpr ⟨List.mem_map.mpr ⟨h, hh, rfl⟩, hc⟩
    rw [hempty] at hkey
    simp [mapKeys] at hkey
  · intro s w acts s' hD hint hr
    rcases draining_run acts s s' w hD hint hr with h1 | ⟨h1, h2⟩
    · exact Or.inl h1
    · exact Or.inr ⟨h2, draining_enabled s' w h1⟩

/-- C2, witness: part (1) at the last transition of `twoDoneSchedule`, and
parts (3) and (2) for two workers. -/
theorem C2_wait_returns_when_registry_is_drained_witness :
    (Notif.zero = Notif.zero ∧ true = true ∧ twoDoneEnd.ewg.admins = [] ∧
      ((twoDoneEnd.issued.map Admin.id).Nodup →
        ∀ h ∈ twoDoneEnd.issued, h.id ∈ twoDoneEnd.removed)) ∧
    (∃ s, Reachable s ∧ s.issued.length = 2 ∧ Draining s 2 ∧
      (Returned s 2 ∨
        (([] : List Action).length + s.weight ≤ s.weight ∧
          ∃ a, a.internal ∧ (step s a).isSome = true))) :=
  have h := C2_wait_returns_when_registry_is_drained
  ⟨h.1 twoDoneSchedule.dropLast twoDoneBefore (.step 2) twoDoneEnd 2 Notif.zero true
      (by
        intro x hx
        simp only [twoDoneSchedule, List.dropLast, List.mem_cons, List.mem_singleton,
          List.not_mem_nil, or_false] at hx
        rcases hx with rfl | rfl | rfl | rfl | rfl | rfl | rfl | rfl | rfl | rfl | rfl <;>
          trivial)
      trivial (by decide) (by decide) rfl (by decide),
    match h.2.2 2 with
    | ⟨s, hr, hl, hD⟩ => ⟨s, hr, hl, hD, h.2.1 s 2 [] s hD (fun a ha => by cases ha) rfl⟩⟩

/-- C3, at the failing inputs: after `Wait` has returned through the Done
report that finds the registry empty (line 167), and after it has returned
through a non-Done report (line 164), the mutex is still locked; every call
made afterwards that starts with `Lock()` (`Add`, `SetAutoInterrupt`,
`RemoveAutoInterrupt`, `NotifyDone`, `Interrupt`, `InterruptAll`) stays at that
`Lock()` under every schedule. -/
theorem C3_lock_held_after_wait_returns :
    (run State.init drainSchedule = some drainEnd ∧
      drainEnd.threads[1]? = some (.done (.wait Notif.zero true)) ∧
      drainEnd.ewg.safe = true ∧
      ∀ (c : Call) (acts : List Action) (s' : State), c.entry.atLock = true →
        run drainEnd (.call c :: acts) = some s' →
        s'.ewg.safe = true ∧ s'.threads[3]? = some c.entry) ∧
    (run State.init escalateSchedule = some escalateEnd ∧
      escalateEnd.threads[1]? =
        some (.done (.wait ⟨⟨0⟩, NotifCode_Error, none, some 7⟩ false)) ∧
      escalateEnd.ewg.safe = true ∧
      ∀ (c : Call) (acts : List Action) (s' : State), c.entry.atLock = true →
        run escalateEnd (.call c :: acts) = some s' →
        s'.ewg.safe = true ∧ s'.threads[3]? = some c.entry) := by
  refine ⟨⟨by decide, rfl, rfl, ?_⟩, ⟨by decide, rfl, rfl, ?_⟩⟩
  · intro c acts s' hc hr
    simp only [run] at hr
    cases h1 : step drainEnd (.call c) with
    | none => simp [h1] at hr
    | some s1 =>
      simp only [h1, Option.some_bind] at hr
      have hstuck : Stuck drainEnd := ⟨rfl, by decide⟩
      obtain ⟨key, -⟩ := doCall_cases drainEnd c s1 h1
      obtain ⟨hS1, -, -, -⟩ := stuck_step drainEnd (.call c) s1 hstuck h1
      obtain ⟨hS', -, hk, -⟩ := stuck_run acts s1 s' hS1 hr
      refine ⟨hS'.1, hk 3 c.entry ?_ hc⟩
      subst key
      rfl
  · intro c acts s' hc hr
    simp only [run] at hr
    cases h1 : step escalateEnd (.call c) with
    | none => simp [h1] at hr
    | some s1 =>
      simp only [h1, Option.some_bind] at hr
      have hstuck : Stuck escalateEnd := ⟨rfl, by decide⟩
      obtain ⟨key, -⟩ := doCall_cases escalateEnd c s1 h1
      obtain ⟨hS1, -, -, -⟩ := stuck_step escalateEnd (.call c) s1 hstuck h1
      obtain ⟨hS', -, hk, -⟩ := stuck_run acts s1 s' hS1 hr
      refine ⟨hS'.1, hk 3 c.entry ?_ hc⟩
      subst key
      rfl

/-- C4, at the failing input (scenario D of the specification): three
workers, `SetAutoInterrupt(7, InterruptCode_Stop)` for the custom code `7`, and
the first worker calls `Notify(7, payload, nil)`.  `Wait` receives the report,
locks the mutex at line 159, leaves the loop without unlocking and calls
`InterruptAll`, whose `Lock()` (line 180) it can never pass.  The two other
workers, still in the registry, poll and get `(Interrupt{}, false)`; and under
every further schedule `Wait` still stands at that `Lock()`, the registry is
unchanged, and no `PollInterrupt` ever yields `true`: `Wait` does not return
and no worker receives the interrupt. -/
theorem C4_auto_interrupt_deadlocks_wait :
    run State.init customCodeSchedule = some customCodeEnd ∧
    mapGet customCodeEnd.ewg.admins ⟨1⟩ = some h1 ∧
    mapGet customCodeEnd.ewg.admins ⟨2⟩ = some h2 ∧
    run customCodeEnd [.call (.PollInterrupt h1), .step 6, .call (.PollInterrupt h2), .step 7] =
      some customCodePolled ∧
    (∀ (acts : List Action) (s' : State), run customCodeEnd acts = some s' →
      s'.threads[4]? = some (.iaLock stop (some (⟨⟨0⟩, 7, some 5, none⟩, false))) ∧
      s'.ewg = customCodeEnd.ewg ∧
      ∀ (i : Interrupt), Pc.done (.poll i true) ∉ s'.threads) := by
  refine ⟨by decide, by decide, by decide, by decide, ?_⟩
  intro acts s' hr
  have hstuck : Stuck customCodeEnd := ⟨rfl, by decide⟩
  obtain ⟨-, he, hk, hn⟩ := stuck_run acts customCodeEnd s' hstuck hr
  refine ⟨hk 4 _ rfl rfl, he, ?_⟩
  intro i hmem
  rcases hn _ hmem with h1 | h1
  · simp [customCodeEnd] at h1
  · exact stuckNew_not_polled _ h1 i rfl

/-- C5: on a group whose registry is empty, in particular on a group fresh from
`New`, `Wait` returns `(Notif{}, true)` in a single transition of its own: no
report is received (no sender moves), and the registry, the policy table, the
id counter and the mutex are left as they were. -/
theorem C5_wait_on_empty_registry (s : State) (t : Nat)
    (hpc : s.threads[t]? = some .waitStart) (hempty : s.ewg.admins = []) :
    step s (.step t) =
      some { s with threads := s.threads.set t (.done (.wait Notif.zero true)) } := by
  simp [step, doStep, hpc, hempty]

/-- C5, witness: `Wait` called right after `New()`. -/
theorem C5_wait_on_empty_registry_witness :
    step ⟨New, [.waitStart], 0, [], []⟩ (.step 0) =
      some ⟨New, [.done (.wait Notif.zero true)], 0, [], []⟩ :=
  C5_wait_on_empty_registry ⟨New, [.waitStart], 0, [], []⟩ 0 rfl rfl

/-- C6, counterexample: `2^63 + 1` calls of `Add` on a fresh group.  The call
number `2^63` returns the id `2^63 - 1`, the largest Go `int`; the next call
increments past it and returns `-2^63`, which is smaller. -/
theorem C6_counterexample :
    ∃ (s : State) (a b : Admin), run State.init (addSchedule (2 ^ 63 + 1)) = some s ∧
      s.issued[2 ^ 63 - 1]? = some a ∧ s.issued[2 ^ 63]? = some b ∧
      a.id.id = 2 ^ 63 - 1 ∧ b.id.id = -2 ^ 63 ∧ b.id.id < a.id.id := by
  obtain ⟨s, hrun, -, -, hlen, -, -⟩ := addSchedule_run (2 ^ 63 + 1)
  have hinv := idInv_reachable s ⟨_, hrun⟩
  have h1 : 2 ^ 63 - 1 < s.issued.length := by rw [hlen]; norm_num
  have h2 : 2 ^ 63 < s.issued.length := by rw [hlen]; norm_num
  have ha : s.issued[2 ^ 63 - 1]? = some (s.issued.get ⟨2 ^ 63 - 1, h1⟩) :=
    List.getElem?_eq_getElem h1
  have hb : s.issued[2 ^ 63]? = some (s.issued.get ⟨2 ^ 63, h2⟩) :=
    List.getElem?_eq_getElem h2
  have ea := hinv.2 _ _ ha
  have eb := hinv.2 _ _ hb
  have va : wrapInt (((2 ^ 63 - 1 : Nat)) : Int) = 2 ^ 63 - 1 := by
    unfold wrapInt; norm_num
  have vb : wrapInt (((2 ^ 63 : Nat)) : Int) = -2 ^ 63 := by
    unfold wrapInt; norm_num
  rw [va] at ea
  rw [vb] at eb
  refine ⟨s, _, _, hrun, ha, hb, ea, eb, ?_⟩
  rw [ea, eb]
  norm_num

/-- C6, amended: as long as at most `2^63` calls of `Add` have been made on
the group (whatever other operations are interleaved), the ids returned are
strictly increasing in the order of the calls, hence pairwise distinct: the
id returned by a later `Add` is strictly greater than the id returned by every
earlier one. -/
theorem C6_ids_increase_before_wraparound (s : State) (i j : Nat) (a b : Admin)
    (hreach : Reachable s) (hbound : s.issued.length ≤ 2 ^ 63) (hij : i < j)
    (ha : s.issued[i]? = some a) (hb : s.issued[j]? = some b) :
    a.id.id < b.id.id ∧ a.id ≠ b.id := by
  have hinv := idInv_reachable s hreach
  have hj : j < s.issued.length := by
    rcases Nat.lt_or_ge j s.issued.length with h | h
    · exact h
    · rw [List.getElem?_eq_none h] at hb; cases hb
  have ea := hinv.2 i a ha
  have eb := hinv.2 j b hb
  rw [wrapInt_small i (by omega)] at ea
  rw [wrapInt_small j (by omega)] at eb
  have hlt : a.id.id < b.id.id := by
    rw [ea, eb]
    exact_mod_cast hij
  refine ⟨hlt, ?_⟩
  intro h
  rw [h] at hlt
  exact lt_irrefl _ hlt

/-- C6, witness: the two handles issued in `doneCodeSchedule`. -/
theorem C6_ids_increase_before_wraparound_witness :
    h0.id.id < h1.id.id ∧ h0.id ≠ h1.id :=
  C6_ids_increase_before_wraparound doneCodeEnd 0 1 h0 h1 ⟨doneCodeSchedule, by decide⟩
    (by decide) (by decide) rfl rfl

/-- C7, counterexample.  First: `NotifyDone` has been called on the handle of
worker 1, but the call waits at its `Lock()` (the mutex is held by an
`Interrupt` blocked on worker 0); as long as worker 0 does not poll, id 1 stays
in the registry.  Second: after `2^64` calls of `Add` the id counter has
wrapped around, one more `Add` returns an id that is already a key, and the
registry does not grow. -/
theorem C7_counterexample :
    (run State.init calledSchedule = some calledEnd ∧
      ∀ (acts : List Action) (s' : State), (∀ r, Action.recv r 2 ∉ acts) →
        run calledEnd acts = some s' →
        s'.threads[3]? = some (.ndLock h1) ∧ (⟨1⟩ : AdminId) ∈ mapKeys s'.ewg.admins) ∧
    (∃ (s s' : State), run State.init (addSchedule (2 ^ 64)) = some s ∧
      run s [.call .Add, .step (2 ^ 64)] = some s' ∧
      s'.issued.length = s.issued.length + 1 ∧
      s'.ewg.admins.length ≤ s.ewg.admins.length) := by
  refine ⟨⟨by decide, ?_⟩, ?_⟩
  · intro acts s' hna hr
    have hreach : Reachable calledEnd := ⟨calledSchedule, by decide⟩
    obtain ⟨-, -, k3, k4⟩ := blocked_run acts calledEnd (sendersOk_reachable _ hreach) 2
      (.intSend h0 stop) rfl (by simp [Pc.offer]) s' hr hna
    refine ⟨k3 3 _ rfl rfl, ?_⟩
    rw [k4]
    decide
  · obtain ⟨s, hrun, hsafe, hlen, hiss, hrem, -⟩ := addSchedule_run (2 ^ 64)
    have hreach : Reachable s := ⟨_, hrun⟩
    have hid := idInv_reachable s hreach
    have hreg := regInv_reachable s hreach
    have htop : wrapInt (s.ewg.idGen.top.id + 1) = 0 := by
      rw [hid.1, hiss, wrapInt_succ]
      unfold wrapInt
      norm_num
    have h0lt : 0 < s.issued.length := by rw [hiss]; norm_num
    have hkey : (⟨0⟩ : AdminId) ∈ mapKeys s.ewg.admins := by
      have hmem : s.issued.get ⟨0, h0lt⟩ ∈ s.issued := List.get_mem _ _ _
      have e0 := hid.2 0 _ (List.getElem?_eq_getElem h0lt)
      have hk := hreg.2.2.2.1 hrem _ hmem
      have hz : (s.issued.get ⟨0, h0lt⟩).id = ⟨0⟩ := by
        have : wrapInt ((0 : Nat) : Int) = 0 := by decide
        rw [this] at e0
        cases hx : (s.issued.get ⟨0, h0lt⟩).id with
        | mk v =>
          have hv : (s.issued.get ⟨0, h0lt⟩).id.id = v := by rw [hx]
          have e0' : (s.issued.get ⟨0, h0lt⟩).id.id = 0 := e0
          rw [hv] at e0'
          rw [e0']
      rw [hz] at hk
      exact hk
    refine ⟨s,
      { s with ewg := (s.ewg.Add s.nextCh).2, nextCh := s.nextCh + 1,
               issued := s.issued ++ [(s.ewg.Add s.nextCh).1],
               threads := (s.threads ++ [Pc.addLock]).set (2 ^ 64)
                 (.done (.handle (s.ewg.Add s.nextCh).1)) }, hrun, ?_, ?_, ?_⟩
    · exact add_once s (2 ^ 64) hsafe hlen
    · simp
    · simp only [ErrorWaitGroup.Add, adminIdGen.next]
      rw [htop]
      exact length_mapSet_of_mem _ _ _ hkey

/-- C7, amended: in every reachable state in which the ids returned by `Add`
so far are pairwise distinct, the registry's key set is exactly the set of ids
returned by `Add` minus the ids that a `NotifyDone` has deleted in its
critical section (line 83), which a call of `NotifyDone` reaches only once it
has acquired the mutex.  In such a state the critical section of `Add` grows
the registry by exactly one entry, as long as the new id is distinct from the
earlier ones; and no action other than a goroutine's own step (so no call of
`Notify`, `NotifyError` or any other operation, and no receive of a report or
an interrupt) changes the registry. -/
theorem C7_registry_is_issued_minus_removed (s : State) (hreach : Reachable s)
    (hnodup : (s.issued.map Admin.id).Nodup) :
    (∀ id, id ∈ mapKeys s.ewg.admins ↔ (id ∈ s.issued.map Admin.id ∧ id ∉ s.removed)) ∧
    (∀ (t : Nat) (s' : State), s.threads[t]? = some .addLock →
      step s (.step t) = some s' → (s'.issued.map Admin.id).Nodup →
      s'.ewg.admins.length = s.ewg.admins.length + 1) ∧
    (∀ (a : Action) (s' : State), step s a = some s' → (∀ t, a ≠ .step t) →
      s'.ewg.admins = s.ewg.admins) := by
  have hreg := regInv_reachable s hreach
  refine ⟨hreg.2.2.2.2 hnodup, ?_, ?_⟩
  · intro t s' hpc hs hnd'
    rcases step_frame s _ s' hs with ⟨-, -, f3, -⟩ | ⟨t', -, -, -, rfl⟩ | ⟨t', hh, e, hpc', -, -⟩
    · exfalso
      simp only [step, doStep, hpc] at hs
      split at hs
      · cases hs
      · cases hs
        simp at f3
    · simp only [ErrorWaitGroup.Add, adminIdGen.next, List.map_append, List.map_cons,
        List.map_nil] at hnd' ⊢
      apply length_mapSet_of_not_mem
      intro hin
      have := (hreg.2.2.2.2 hnodup _).mp hin
      exact (List.nodup_append.mp hnd').2.2 this.1 (List.mem_singleton.mpr rfl)
    · cases e
      rw [hpc] at hpc'
      cases hpc'
  · intro a s' hs hna
    rcases step_frame s a s' hs with ⟨-, f2, -, -⟩ | ⟨t', e, -, -, -⟩ | ⟨t', hh, e, -, -, -⟩
    · exact f2
    · exact absurd e (hna t')
    · exact absurd e (hna t')

/-- C7, witness: the registry at the end of `doneCodeSchedule`, where worker 0
has been removed by its `NotifyDone` and worker 1 has not. -/
theorem C7_registry_is_issued_minus_removed_witness :
    ((⟨1⟩ : AdminId) ∈ mapKeys doneCodeEnd.ewg.admins ↔
      ((⟨1⟩ : AdminId) ∈ doneCodeEnd.issued.map Admin.id ∧
        (⟨1⟩ : AdminId) ∉ doneCodeEnd.removed)) ∧
    ((⟨0⟩ : AdminId) ∈ mapKeys doneCodeEnd.ewg.admins ↔
      ((⟨0⟩ : AdminId) ∈ doneCodeEnd.issued.map Admin.id ∧
        (⟨0⟩ : AdminId) ∉ doneCodeEnd.removed)) :=
  have h := (C7_registry_is_issued_minus_removed doneCodeEnd ⟨doneCodeSchedule, by decide⟩
    (by decide)).1
  ⟨h ⟨1⟩, h ⟨0⟩⟩

/-- C8, counterexample: `Interrupt` on a registered worker that is not polling
does not complete.  Under every schedule in which no `PollInterrupt` receives
from it, it stays blocked in its send with the mutex locked, and a second
`Interrupt` to the same worker stays at its `Lock()`: the newer interrupt never
reaches the worker. -/
theorem C8_counterexample :
    run State.init blockedSchedule = some blockedEnd ∧
    (∀ (acts : List Action) (s' : State), (∀ r, Action.recv r 1 ∉ acts) →
      run blockedEnd acts = some s' →
      s'.threads[1]? = some (.intSend h0 stop) ∧ s'.ewg.safe = true) ∧
    (∀ (acts : List Action) (s' : State), (∀ r, Action.recv r 1 ∉ acts) →
      run blockedEnd (.call (.Interrupt ⟨0⟩ kill) :: acts) = some s' →
      s'.threads[2]? = some (.intLock ⟨0⟩ kill)) := by
  have hreach : Reachable blockedEnd := ⟨blockedSchedule, by decide⟩
  have hok := sendersOk_reachable _ hreach
  refine ⟨by decide, ?_, ?_⟩
  · intro acts s' hna hr
    obtain ⟨k1, k2, -, -⟩ := blocked_run acts blockedEnd hok 1 (.intSend h0 stop) rfl (by simp [Pc.offer]) s' hr hna
    exact ⟨k1, k2⟩
  · intro acts s' hna hr
    simp only [run] at hr
    cases h1 : step blockedEnd (.call (.Interrupt ⟨0⟩ kill)) with
    | none => simp [h1] at hr
    | some s1 =>
      simp only [h1, Option.some_bind] at hr
      obtain ⟨key, -⟩ := doCall_cases blockedEnd (.Interrupt ⟨0⟩ kill) s1 h1
      have hok1 := sendersOk_step _ _ _ hok h1
      subst key
      obtain ⟨-, -, k3, -⟩ := blocked_run acts _ hok1 1 (.intSend h0 stop) rfl (by simp [Pc.offer])
        s' hr hna
      exact k3 2 _ rfl rfl

/-- C8, amended: `Interrupt` on a registered worker locks the mutex and blocks
in a send on that worker's unbuffered channel; `InterruptAll` on a non-empty
registry locks the mutex and blocks in a send to the worker its `range` visits
first, whichever worker that is (every order of the registry is possible).
For every goroutine `t` blocked in such a send of `inter` on channel `ch`: the
mutex is locked; `inter` on `ch` is the only interrupt pending anywhere (no
second interrupt can be delivered before it is polled); `t` cannot move by
itself; every action that is not a receive from `t` leaves `t` blocked, the
mutex locked and every goroutine at a `Lock()` waiting; and a receive from `t`
is a `PollInterrupt` on `ch`, which returns `(inter, true)`. -/
theorem C8_interrupt_blocks_until_polled (s : State) (t : Nat) (p : Pc) (ch : Nat)
    (inter : Interrupt) (hreach : Reachable s) (hpc : s.threads[t]? = some p)
    (hoff : p.offer = some (ch, inter)) :
    (∀ (s0 : State) (t0 : Nat) (id : AdminId) (i0 : Interrupt) (a : Admin),
      s0.threads[t0]? = some (.intLock id i0) → s0.ewg.safe = false →
      mapGet s0.ewg.admins id = some a →
      step s0 (.step t0) =
        some { s0 with ewg := { s0.ewg with safe := true },
                       threads := s0.threads.set t0 (.intSend a i0) }) ∧
    (∀ (s0 : State) (t0 : Nat) (i0 : Interrupt) (k : Option (Notif × Bool))
      (a : Admin) (rest : List Admin),
      s0.threads[t0]? = some (.iaLock i0 k) → s0.ewg.safe = false →
      (a :: rest).Perm (s0.ewg.admins.map (fun x => x.2)) →
      step s0 (.range t0 (a :: rest)) =
        some { s0 with ewg := { s0.ewg with safe := true },
                       threads := s0.threads.set t0 (.iaSend a rest i0 k) }) ∧
    s.ewg.safe = true ∧
    (∀ (ch' : Nat) (i : Interrupt), s.pending ch' i → ch' = ch ∧ i = inter) ∧
    step s (.step t) = none ∧
    (∀ (a : Action) (s' : State), step s a = some s' → (∀ r, a ≠ .recv r t) →
      s'.threads[t]? = some p ∧ s'.ewg.safe = true ∧
        ∀ (j : Nat) (q : Pc), s.threads[j]? = some q → q.atLock = true →
          s'.threads[j]? = some q) ∧
    (∀ (r : Nat) (s' : State), step s (.recv r t) = some s' →
      ∃ b, s.threads[r]? = some (.poll b) ∧ b.interruptCh = ch ∧
        s'.threads[r]? = some (.done (.poll inter true))) := by
  have hok := sendersOk_reachable s hreach
  have hoff' : p.offer ≠ none := by rw [hoff]; simp
  have hsafe : s.ewg.safe = true := by
    cases hf : s.ewg.safe with
    | true => rfl
    | false => exact absurd (hok.1 hf p (List.mem_iff_getElem?.mpr ⟨_, hpc⟩)) hoff'
  refine ⟨?_, ?_, hsafe, ?_, ?_, ?_, ?_⟩
  · intro s0 t0 id i0 a h0 hf ha
    simp [step, doStep, h0, hf, ha]
  · intro s0 t0 i0 k a rest h0 hf ha
    simp [step, doRange, h0, hf, ha]
  · intro ch' i hp
    exact pending_unique s hok t p ch inter hpc hoff ch' i hp
  · cases p <;> simp [Pc.offer] at hoff <;> simp [step, doStep, hpc]
  · intro a s' hs hna
    obtain ⟨k1, k2, k3, -⟩ := blocked_step s hok t p hpc hoff' a s' hs hna
    exact ⟨k1, k2, k3⟩
  · intro r s' hs
    simp only [step] at hs
    rcases doRecv_cases s r t s' hs with ⟨n, -, hsd, -⟩ | ⟨a, b, i1, hr, hsd, hab, rfl⟩ |
      ⟨a, b, i1, k, hr, hsd, hab, rfl⟩ | ⟨a, b, c, rest, i1, k, hr, hsd, hab, rfl⟩
    · rw [hpc] at hsd; cases hsd; cases hoff
    all_goals
      rw [hpc] at hsd
      cases hsd
      simp only [Pc.offer, Option.some.injEq, Prod.mk.injEq] at hoff
      obtain ⟨hc, hi⟩ := hoff
      subst hi
      have hne : t ≠ r := by
        rintro rfl; rw [hpc] at hr; cases hr
      exact ⟨a, hr, hab.trans hc, get_set_set_first hr hne⟩

/-- C8, witness: an `InterruptAll` whose `range` started with the second
worker and is blocked sending to it. -/
theorem C8_interrupt_blocks_until_polled_witness :
    laterFirstEnd.ewg.safe = true ∧
    (∀ (ch' : Nat) (i : Interrupt), laterFirstEnd.pending ch' i → ch' = 1 ∧ i = stop) ∧
    step laterFirstEnd (.step 2) = none :=
  have h := C8_interrupt_blocks_until_polled laterFirstEnd 2 (.iaSend h1 [h0] stop none) 1 stop
    ⟨laterFirstSchedule, by decide⟩ rfl rfl
  ⟨h.2.2.1, h.2.2.2.1, h.2.2.2.2.1⟩

/-- C9, counterexample.  First: while `Interrupt(h0.id, stop)` is blocked on
the first worker, `Interrupt(h1.id, kill)` on the second worker, whose id is in
the registry, stays at its `Lock()` and nothing becomes available on the
second worker's channel, under every schedule in which the first interrupt is
not polled.  Second: after a `Wait` that returned an Error report, with the
mutex still locked, `Interrupt` on the registered id 0 stays at its `Lock()`
under every schedule and no interrupt is ever pending. -/
theorem C9_counterexample :
    (run State.init secondInterruptSchedule = some secondInterruptEnd ∧
      mapGet secondInterruptEnd.ewg.admins ⟨1⟩ = some h1 ∧
      ∀ (acts : List Action) (s' : State), (∀ r, Action.recv r 2 ∉ acts) →
        run secondInterruptEnd acts = some s' →
        s'.threads[3]? = some (.intLock ⟨1⟩ kill) ∧
        ∀ (i : Interrupt), ¬ s'.pending h1.interruptCh i) ∧
    (run State.init escalateSchedule = some escalateEnd ∧
      mapGet escalateEnd.ewg.admins ⟨0⟩ = some h0 ∧
      ∀ (acts : List Action) (s' : State),
        run escalateEnd (.call (.Interrupt ⟨0⟩ stop) :: acts) = some s' →
        s'.threads[3]? = some (.intLock ⟨0⟩ stop) ∧
        ∀ (ch : Nat) (i : Interrupt), ¬ s'.pending ch i) := by
  refine ⟨⟨by decide, by decide, ?_⟩, by decide, by decide, ?_⟩
  · intro acts s' hna hr
    have hreach : Reachable secondInterruptEnd := ⟨secondInterruptSchedule, by decide⟩
    obtain ⟨k1, -, k3, -⟩ := blocked_run acts secondInterruptEnd
      (sendersOk_reachable _ hreach) 2 (.intSend h0 stop) rfl (by simp [Pc.offer]) s' hr hna
    refine ⟨k3 3 _ rfl rfl, ?_⟩
    intro i hp
    have hok' := sendersOk_reachable s' (reachable_run acts _ s' hreach hr)
    have := pending_unique s' hok' 2 (.intSend h0 stop) h0.interruptCh stop k1 rfl
      h1.interruptCh i hp
    exact absurd this.1 (by decide)
  · intro acts s' hr
    simp only [run] at hr
    cases hc : step escalateEnd (.call (.Interrupt ⟨0⟩ stop)) with
    | none => simp [hc] at hr
    | some s1 =>
      simp only [hc, Option.some_bind] at hr
      have hstuck : Stuck escalateEnd := ⟨rfl, by decide⟩
      obtain ⟨key, -⟩ := doCall_cases escalateEnd (.Interrupt ⟨0⟩ stop) s1 hc
      obtain ⟨hS1, -, -, -⟩ := stuck_step escalateEnd _ s1 hstuck hc
      obtain ⟨hS', -, hk, -⟩ := stuck_run acts s1 s' hS1 hr
      refine ⟨hk 3 (.intLock ⟨0⟩ stop) ?_ rfl, fun ch i => not_pending_of_stuck s' hS' ch i⟩
      subst key
      rfl

/-- C9, amended: `Interrupt(id, inter)` standing at its `Lock()`.  While the
mutex is locked by another call it cannot move and places nothing.  Once the
mutex is free and it locks it: if `id` is in the registry with handle `a`, it
blocks offering the interrupt on `a`'s channel, so that the interrupt is
available on that channel and on no other (a `PollInterrupt` on `a` receives
`(inter, true)`), and the registry and the policy table are unchanged; if `id`
is not in the registry, which is the case after the worker's `NotifyDone`
deleted it, the call returns without an error and changes nothing besides: no
mailbox, not the registry, not the policy table. -/
theorem C9_interrupt_targets_registered_worker_only (s : State) (t : Nat) (id : AdminId)
    (inter : Interrupt) (hreach : Reachable s)
    (hpc : s.threads[t]? = some (.intLock id inter)) :
    (s.ewg.safe = true → step s (.step t) = none) ∧
    (s.ewg.safe = false →
      (∀ (a : Admin), mapGet s.ewg.admins id = some a →
        ∃ s', step s (.step t) = some s' ∧
          s'.ewg.admins = s.ewg.admins ∧ s'.ewg.autoInterrupts = s.ewg.autoInterrupts ∧
          (∀ (ch : Nat) (i : Interrupt), s'.pending ch i ↔ (ch = a.interruptCh ∧ i = inter)) ∧
          ∀ (r : Nat) (b : Admin), s.threads[r]? = some (.poll b) →
            b.interruptCh = a.interruptCh →
            ∃ s'', step s' (.recv r t) = some s'' ∧
              s''.threads[r]? = some (.done (.poll inter true))) ∧
      (mapGet s.ewg.admins id = none →
        step s (.step t) = some { s with threads := s.threads.set t (.done .unit) } ∧
        ∀ (ch : Nat) (i : Interrupt),
          State.pending { s with threads := s.threads.set t (.done .unit) } ch i ↔
            s.pending ch i)) ∧
    (∀ (g : ErrorWaitGroup) (a : Admin), mapGet (g.deleteAdmin a).admins a.id = none) := by
  have hok := sendersOk_reachable s hreach
  refine ⟨?_, ?_, ?_⟩
  · intro hheld
    simp [step, doStep, hpc, hheld]
  · intro hfree
    refine ⟨?_, ?_⟩
    · intro a ha
      refine ⟨{ s with ewg := { s.ewg with safe := true },
                       threads := s.threads.set t (.intSend a inter) }, ?_, rfl, rfl, ?_, ?_⟩
      · simp [step, doStep, hpc, hfree, ha]
      · intro ch i
        constructor
        · rintro ⟨j, p, hj, ho⟩
          rcases get_set_cases hj with ⟨-, rfl⟩ | ⟨-, g1⟩
          · simp only [Pc.offer, Option.some.injEq, Prod.mk.injEq] at ho
            exact ⟨ho.1.symm, ho.2.symm⟩
          · exact absurd ⟨j, p, g1, ho⟩ (not_pending_of_free s hok hfree ch i)
        · rintro ⟨rfl, rfl⟩
          exact ⟨t, _, getElem?_set_self_of_some hpc, rfl⟩
      · intro r b hr hb
        have hne : t ≠ r := by
          rintro rfl; rw [hpc] at hr; cases hr
        have h1 : (s.threads.set t (.intSend a inter))[r]? = some (.poll b) := by
          rw [List.getElem?_set_ne hne]; exact hr
        have h2 : (s.threads.set t (.intSend a inter))[t]? = some (.intSend a inter) :=
          getElem?_set_self_of_some hpc
        refine ⟨_, doRecv_poll_intSend _ r t a b inter h1 h2 hb, ?_⟩
        dsimp only
        exact get_set_set_first h1 hne
    · intro ha
      refine ⟨by simp [step, doStep, hpc, hfree, ha], ?_⟩
      intro ch i
      constructor
      · rintro ⟨j, p, hj, ho⟩
        rcases get_set_cases hj with ⟨-, rfl⟩ | ⟨-, g1⟩
        · cases ho
        · exact ⟨j, p, g1, ho⟩
      · intro hp
        exact absurd hp (not_pending_of_free s hok hfree ch i)
  · intro g a
    exact mapGet_mapDelete _ _

/-- C9, witness: `Interrupt` on the registered id `0`, on a reachable state
with the mutex free. -/
theorem C9_interrupt_targets_registered_worker_only_witness :
    ∃ s', step interruptBefore (.step 1) = some s' ∧
      s'.ewg.admins = interruptBefore.ewg.admins ∧
      s'.ewg.autoInterrupts = interruptBefore.ewg.autoInterrupts ∧
      (∀ (ch : Nat) (i : Interrupt), s'.pending ch i ↔ (ch = h0.interruptCh ∧ i = stop)) ∧
      ∀ (r : Nat) (b : Admin), interruptBefore.threads[r]? = some (.poll b) →
        b.interruptCh = h0.interruptCh →
        ∃ s'', step s' (.recv r 1) = some s'' ∧
          s''.threads[r]? = some (.done (.poll stop true)) :=
  ((C9_interrupt_targets_registered_worker_only interruptBefore 1 ⟨0⟩ stop
    ⟨[.call .Add, .step 0, .call (.Interrupt ⟨0⟩ stop)], by decide⟩ rfl).2.1 rfl).1 h0
    (by decide)

/-- C10: whenever a call of `Wait` has returned `(n, b)`, the flag `b` is
`true` exactly when `n` is the zero value `Notif{}`, a `false` flag comes with
a report whose code is not `NotifCode_Done`, and `n` is never a Done-coded
report that carries a non-nil info or err. -/
theorem C10_wait_flag_iff_zero_notif (s : State) (t : Nat) (n : Notif) (b : Bool)
    (hreach : Reachable s) (hret : s.threads[t]? = some (.done (.wait n b))) :
    (b = true ↔ n = Notif.zero) ∧ (b = false → n.code ≠ NotifCode_Done) ∧
      ∀ (id : AdminId) (info err : Option Nat), (info ≠ none ∨ err ≠ none) →
        n ≠ ⟨id, NotifCode_Done, info, err⟩ := by
  have h := waitOk_reachable s hreach _ (List.mem_iff_getElem?.mpr ⟨_, hret⟩)
  simp only [Pc.waitOk, Ret.waitOk] at h
  rcases h with ⟨hb, hn⟩ | ⟨hb, hn⟩
  · subst hb; subst hn
    refine ⟨by simp, by simp, ?_⟩
    intro id info err hne heq
    simp only [Notif.zero, Notif.mk.injEq] at heq
    rcases hne with h1 | h1
    · exact h1 heq.2.2.1.symm
    · exact h1 heq.2.2.2.symm
  · subst hb
    refine ⟨?_, fun _ => hn, ?_⟩
    · constructor
      · intro h; cases h
      · intro h; subst h; exact absurd rfl hn
    · intro id info err _ heq
      subst heq; exact hn rfl

/-- C10, witness: the `Wait` of `escalateSchedule` returned the Error report
with `false`. -/
theorem C10_wait_flag_iff_zero_notif_witness :
    ((false = true ↔ (⟨⟨0⟩, NotifCode_Error, none, some 7⟩ : Notif) = Notif.zero) ∧
      (false = false → (⟨⟨0⟩, NotifCode_Error, none, some 7⟩ : Notif).code ≠ NotifCode_Done) ∧
      ∀ (id : AdminId) (info err : Option Nat), (info ≠ none ∨ err ≠ none) →
        (⟨⟨0⟩, NotifCode_Error, none, some 7⟩ : Notif) ≠ ⟨id, NotifCode_Done, info, err⟩) :=
  C10_wait_flag_iff_zero_notif escalateEnd 1 _ false ⟨escalateSchedule, by decide⟩ rfl

end ErrorSync
